import Mathlib

/-!
Verification development for the P_Excel_Desktop execution engine.

The JavaScript core (src/workers/cacheWorker.js, src/main/workerPool.js,
src/main/streamProcessor.js) is shallow-embedded below: every stateful
method becomes a pure Lean function on an explicit state type, JS numbers
used for sizes and timestamps become `Int`/`Nat`, JSON values become the
inductive `JSVal` (numbers as exact rationals), and external libraries
(zlib, crypto MD5, `JSON.stringify`/`parse`, `Date` parsing, locale
collation) are modelled as concrete executable Lean functions that expose
exactly the interface contract the engine relies on; each such model is
flagged with a `Modelled:` remark in its doc comment.
-/

namespace PExcel

open scoped List

/-- Task / cache-entry priority level, the string enum `low`/`normal`/`high`
used throughout `workerPool.js` and `cacheWorker.js`. -/
inductive Priority where
  | low : Priority
  | normal : Priority
  | high : Priority
  deriving DecidableEq, Repr

mutual
/-- A JSON-serializable JavaScript value.  Numbers are modelled as exact
rationals (`ℚ`) rather than IEEE doubles; none of the verified claims
depends on floating-point rounding. -/
inductive JSVal where
  | jnull : JSVal
  | jbool (b : Bool) : JSVal
  | jnum (q : ℚ) : JSVal
  | jstr (s : String) : JSVal
  | jarr (l : JSList) : JSVal
  | jobj (l : JSPairs) : JSVal
  deriving DecidableEq

/-- A list of JSON values (element list of a JSON array). -/
inductive JSList where
  | nil : JSList
  | cons (v : JSVal) (tl : JSList) : JSList
  deriving DecidableEq

/-- The ordered field list of a JSON object. -/
inductive JSPairs where
  | nil : JSPairs
  | cons (k : String) (v : JSVal) (tl : JSPairs) : JSPairs
  deriving DecidableEq
end

/-- Look up a field of a JSON object field list (first match wins, like
property access on a JS object built with distinct keys). -/
def JSPairs.get : JSPairs → String → Option JSVal
  | .nil, _ => none
  | .cons k v tl, key => if k = key then some v else tl.get key

/-- Little-endian base-10 digit expansion, with explicit fuel so the
definition is structural (and therefore kernel-reducible). -/
def decDigitsF : Nat → Nat → List Nat
  | 0, _ => []
  | fuel + 1, n => if n < 10 then [n] else n % 10 :: decDigitsF fuel (n / 10)

/-- Render a natural number in decimal. -/
def natToDec (n : Nat) : String :=
  String.mk ((decDigitsF (n + 1) n).reverse.map (fun d => Char.ofNat (48 + d)))

/-- Render an integer in decimal, as JS `String(n)` does for integers. -/
def intToDec (i : Int) : String :=
  if i < 0 then "-" ++ natToDec i.natAbs else natToDec i.natAbs

/-- Render a rational the way JS renders a number.
Modelled: external number-to-string conversion; integral values (the only
ones exercised by the claims) render exactly as JS does, non-integral
values use a `num/den` form. -/
def numToString (q : ℚ) : String :=
  if q.den = 1 then intToDec q.num else intToDec q.num ++ "/" ++ natToDec q.den

mutual
/-- JS `String(v)` conversion.
Modelled: external ToString coercion; primitives follow the ECMA rules
(`null ↦ "null"`, booleans, decimal numbers, strings unchanged), arrays
render as their elements joined with `","` (with null elements rendered
empty, as `Array.prototype.toString` does) and plain objects render as
`"[object Object]"`. -/
def jsToString : JSVal → String
  | .jnull => "null"
  | .jbool b => if b then "true" else "false"
  | .jnum q => numToString q
  | .jstr s => s
  | .jarr l => jsArrToString l
  | .jobj _ => "[object Object]"

/-- Comma-joined rendering of a JSON array's elements (JS array toString);
`null` elements render as the empty string. -/
def jsArrToString : JSList → String
  | .nil => ""
  | .cons .jnull .nil => ""
  | .cons v .nil => jsToString v
  | .cons .jnull tl => "," ++ jsArrToString tl
  | .cons v tl => jsToString v ++ "," ++ jsArrToString tl
end

/-- Rendering of one element inside `Array.prototype.join`:
`null` and `undefined` render as the empty string, everything else as
`String(v)`. -/
def joinElemStr : Option JSVal → String
  | none => ""
  | some .jnull => ""
  | some v => jsToString v

/-- Numeric value of a list of decimal digit characters, `none` when a
non-digit appears or `o` is empty; also returns the number of digits. -/
def digitsToNat : List Char → Option (Nat × Nat)
  | [] => none
  | [c] => if c.isDigit then some (c.toNat - 48, 1) else none
  | c :: rest =>
    if c.isDigit then
      match digitsToNat rest with
      | some (v, k) => some ((c.toNat - 48) * 10 ^ k + v, k + 1)
      | none => none
    else none

/-- Parse the body of a JS numeric string (after an optional sign):
decimal digits with an optional fractional part (`d+` or `d+.d+`). -/
def parseNumBody (cs : List Char) : Option ℚ :=
  let ip := cs.takeWhile (fun c => c ≠ '.')
  match cs.dropWhile (fun c => c ≠ '.') with
  | [] =>
    match digitsToNat ip with
    | some (v, _) => some (mkRat v 1)
    | none => none
  | '.' :: fp =>
    if fp.contains '.' then none
    else
      match digitsToNat ip, digitsToNat fp with
      | some (v, _), some (f, k) => some (mkRat (v * 10 ^ k + f) (10 ^ k))
      | _, _ => none
  | _ => none

/-- JS `Number(s)` on a string.
Modelled: external ToNumber coercion on strings; the empty string converts
to `0`, optionally signed decimal literals convert to their value, and
everything else (including exponent/hex forms not exercised here) is NaN,
represented as `none`. -/
def strToNum (s : String) : Option ℚ :=
  match s.data with
  | [] => some 0
  | '-' :: rest => (parseNumBody rest).map (fun q => -q)
  | '+' :: rest => parseNumBody rest
  | cs => parseNumBody cs

/-- JS `Number(v)` for a (possibly `undefined`, i.e. `none`) cell value.
NaN is represented as `none`.
Modelled: ToNumber on arrays/objects (which goes through their string
form in JS) is collapsed to NaN; no claim exercises those cases. -/
def jsToNum : Option JSVal → Option ℚ
  | none => none
  | some .jnull => some 0
  | some (.jbool b) => some (if b then 1 else 0)
  | some (.jnum q) => some q
  | some (.jstr s) => strToNum s
  | some (.jarr _) => none
  | some (.jobj _) => none

/-- Number of days in a month of the proleptic Gregorian calendar. -/
def daysInMonth (y m : Nat) : Nat :=
  if m = 2 then
    if y % 4 = 0 ∧ (y % 100 ≠ 0 ∨ y % 400 = 0) then 29 else 28
  else if m = 4 ∨ m = 6 ∨ m = 9 ∨ m = 11 then 30
  else 31

/-- Days between 1970-01-01 and y-m-d (civil calendar, y ≥ 1). -/
def daysFromCivil (y m d : Nat) : Int :=
  let y' : Int := if m ≤ 2 then (y : Int) - 1 else (y : Int)
  let era : Int := y' / 400
  let yoe : Int := y' - era * 400
  let mp : Int := ((m : Int) + 9) % 12
  let doy : Int := (153 * mp + 2) / 5 + (d : Int) - 1
  let doe : Int := yoe * 365 + yoe / 4 - yoe / 100 + doy
  era * 146097 + doe - 719468

/-- Parse a strict `YYYY-MM-DD` date string to epoch milliseconds.
Modelled: the external `new Date(string)` parser, restricted to the ISO
calendar-date form the repository's own `isDateString` helper recognises;
all other strings are an invalid date (`none`). -/
def isoDateMs (s : String) : Option Int :=
  match s.data with
  | [y1, y2, y3, y4, '-', m1, m2, '-', d1, d2] =>
    if (y1.isDigit ∧ y2.isDigit ∧ y3.isDigit ∧ y4.isDigit) ∧
       (m1.isDigit ∧ m2.isDigit) ∧ (d1.isDigit ∧ d2.isDigit) then
      let y := ((y1.toNat - 48) * 10 + (y2.toNat - 48)) * 100 +
               ((y3.toNat - 48) * 10 + (y4.toNat - 48))
      let m := (m1.toNat - 48) * 10 + (m2.toNat - 48)
      let d := (d1.toNat - 48) * 10 + (d2.toNat - 48)
      if 1 ≤ m ∧ m ≤ 12 ∧ 1 ≤ d ∧ d ≤ daysInMonth y m then
        some (86400000 * daysFromCivil y m d)
      else none
    else none
  | _ => none

/-- Epoch milliseconds of `new Date(v)` for a cell value, `none` when the
result is an Invalid Date.  Numbers are taken as a millisecond timestamp
(truncated), booleans coerce through their numeric value, strings go
through the date parser. -/
def toDateMs : Option JSVal → Option Int
  | some (.jnum q) => some ⌊q⌋
  | some (.jbool b) => some (if b then 1 else 0)
  | some (.jstr s) => isoDateMs s
  | _ => none

/-- Three-way comparison of character lists by code point. -/
def charListCmp : List Char → List Char → Int
  | [], [] => 0
  | [], _ :: _ => -1
  | _ :: _, [] => 1
  | a :: as, b :: bs =>
    if a.toNat < b.toNat then -1
    else if b.toNat < a.toNat then 1
    else charListCmp as bs

/-- Three-way string comparison.
Modelled: `String.prototype.localeCompare`, as code-point order; the
claims only exercise ASCII data, where the default locale agrees. -/
def strCmp (a b : String) : Int :=
  charListCmp a.data b.data

/-- JS truthiness of a (possibly `undefined`) value. -/
def jsTruthy : Option JSVal → Bool
  | none => false
  | some .jnull => false
  | some (.jbool b) => b
  | some (.jnum q) => q ≠ 0
  | some (.jstr s) => s ≠ ""
  | some (.jarr _) => true
  | some (.jobj _) => true

/-! ## A stable comparison sort

`Array.prototype.sort` is required by ES2019 to be a stable comparison
sort.  It is modelled by `sortStable`, an insertion sort that places each
element after the existing elements the comparator does not order strictly
after it — the canonical stable sort.  All of its properties used below
(permutation, sortedness under a consistent comparator, stability) are
proved from first principles so that they evaluate by kernel reduction. -/

/-- Insert `x` into `acc`, keeping it behind every element `y` with
`le y x` (so ties keep their existing order: stable insertion). -/
def insertS (le : α → α → Bool) (x : α) : List α → List α
  | [] => [x]
  | y :: ys => if le y x then y :: insertS le x ys else x :: y :: ys

/-- Stable sort by the boolean comparator `le`: fold stable insertions
over the list from the left. -/
def sortStable (le : α → α → Bool) (l : List α) : List α :=
  l.foldl (fun acc x => insertS le x acc) []

theorem insertS_perm (le : α → α → Bool) (x : α) (l : List α) :
    insertS le x l ~ x :: l := by
  induction l with
  | nil => simp [insertS]
  | cons y ys ih =>
    simp only [insertS]
    split
    · exact ((ih.cons y).trans (List.Perm.swap x y ys))
    · exact List.Perm.refl _

theorem sortStable_aux_perm (le : α → α → Bool) (l acc : List α) :
    l.foldl (fun acc x => insertS le x acc) acc ~ acc ++ l := by
  induction l generalizing acc with
  | nil => simp
  | cons x xs ih =>
    have h1 := ih (insertS le x acc)
    have h2 := (insertS_perm le x acc).append_right xs
    have h3 : (x :: acc) ++ xs ~ acc ++ x :: xs := by
      simpa using (@List.perm_middle _ x acc xs).symm
    exact h1.trans (h2.trans h3)

/-- `sortStable` permutes its input. -/
theorem sortStable_perm (le : α → α → Bool) (l : List α) :
    sortStable le l ~ l := by
  simpa [sortStable] using sortStable_aux_perm le l []

theorem mem_insertS {le : α → α → Bool} {x a : α} {l : List α} :
    a ∈ insertS le x l ↔ a = x ∨ a ∈ l :=
  (insertS_perm le x l).mem_iff.trans (List.mem_cons)

theorem mem_sortStable {le : α → α → Bool} {a : α} {l : List α} :
    a ∈ sortStable le l ↔ a ∈ l :=
  (sortStable_perm le l).mem_iff

/-- One stable insertion preserves the combined invariant `le` together
with an arbitrary side relation `P`, provided `P` relates `x` suitably to
the old elements and `le` is transitive and total on a scope `S` covering
the elements involved. -/
theorem insertS_pairwise {S : α → Prop} {le : α → α → Bool}
    {P : α → α → Prop} {x : α} {acc : List α}
    (trans : ∀ a b c, S a → S b → S c →
      le a b = true → le b c = true → le a c = true)
    (total : ∀ a b, S a → S b → le a b = true ∨ le b a = true)
    (hx : S x) (hmem : ∀ a ∈ acc, S a)
    (hacc : acc.Pairwise (fun a b => le a b = true ∧ P a b))
    (hp1 : ∀ y ∈ acc, le y x = true → P y x)
    (hp2 : ∀ y ∈ acc, ¬ le y x = true → P x y) :
    (insertS le x acc).Pairwise (fun a b => le a b = true ∧ P a b) := by
  induction acc with
  | nil => simp [insertS]
  | cons y ys ih =>
    rw [List.pairwise_cons] at hacc
    have hy : S y := hmem y (by simp)
    have hys : ∀ a ∈ ys, S a := fun a ha => hmem a (by simp [ha])
    simp only [insertS]
    by_cases hyx : le y x = true
    · rw [if_pos hyx, List.pairwise_cons]
      constructor
      · intro a ha
        rcases mem_insertS.mp ha with rfl | ha
        · exact ⟨hyx, hp1 y (by simp) hyx⟩
        · exact hacc.1 a ha
      · exact ih hys hacc.2 (fun z hz => hp1 z (by simp [hz]))
          (fun z hz => hp2 z (by simp [hz]))
    · rw [if_neg hyx, List.pairwise_cons]
      constructor
      · intro a ha
        rcases List.mem_cons.mp ha with rfl | ha
        · have hxy : le x a = true := by
            rcases total x a hx hy with h | h
            · exact h
            · exact absurd h hyx
          exact ⟨hxy, hp2 a (by simp) hyx⟩
        · have hyz : le y a = true := (hacc.1 a ha).1
          have hza : ¬ le a x = true := fun hax =>
            hyx (trans y a x hy (hys a ha) hx hyz hax)
          have hxz : le x a = true := by
            rcases total x a hx (hys a ha) with h | h
            · exact h
            · exact absurd h hza
          exact ⟨hxz, hp2 a (by simp [ha]) hza⟩
      · rw [List.pairwise_cons]
        exact ⟨hacc.1, hacc.2⟩

/-- `sortStable` both orders its output by `le` (needing transitivity and
totality of `le` only on the input's elements) and preserves any
pairwise side relation `P` compatible with the input order in the sense
of `hq`: the standard specification of a stable comparison sort. -/
theorem sortStable_pairwise {le : α → α → Bool} {P : α → α → Prop}
    {l : List α}
    (trans : ∀ a b c, a ∈ l → b ∈ l → c ∈ l →
      le a b = true → le b c = true → le a c = true)
    (total : ∀ a b, a ∈ l → b ∈ l → le a b = true ∨ le b a = true)
    (hq : l.Pairwise (fun a b =>
      (le a b = true → P a b) ∧ (¬ le a b = true → P b a))) :
    (sortStable le l).Pairwise (fun a b => le a b = true ∧ P a b) := by
  suffices h : ∀ (todo acc : List α),
      (∀ a ∈ acc, a ∈ l) →
      acc.Pairwise (fun a b => le a b = true ∧ P a b) →
      (∀ a ∈ todo, a ∈ l) →
      (∀ y ∈ acc, ∀ x ∈ todo,
        (le y x = true → P y x) ∧ (¬ le y x = true → P x y)) →
      todo.Pairwise (fun a b =>
        (le a b = true → P a b) ∧ (¬ le a b = true → P b a)) →
      (todo.foldl (fun acc x => insertS le x acc) acc).Pairwise
        (fun a b => le a b = true ∧ P a b) by
    exact h l [] (by simp) (by simp) (fun _ h => h) (by simp) hq
  intro todo
  induction todo with
  | nil => intro acc _ hacc _ _ _; simpa using hacc
  | cons x xs ih =>
    intro acc haccl hacc htodol hcross htodo
    rw [List.pairwise_cons] at htodo
    have hxl : x ∈ l := htodol x (by simp)
    have hins : (insertS le x acc).Pairwise
        (fun a b => le a b = true ∧ P a b) :=
      insertS_pairwise trans total hxl haccl hacc
        (fun y hy => (hcross y hy x (by simp)).1)
        (fun y hy => (hcross y hy x (by simp)).2)
    refine ih (insertS le x acc) ?_ hins ?_ ?_ htodo.2
    · intro a ha
      rcases mem_insertS.mp ha with rfl | ha
      · exact hxl
      · exact haccl a ha
    · exact fun y hy => htodol y (by simp [hy])
    · intro y hy z hz
      rcases mem_insertS.mp hy with rfl | hy
      · exact htodo.1 z hz
      · exact hcross y hy z (by simp [hz])

/-- Mapping commutes with `sortStable` when the comparator on the source
matches the comparator on the image. -/
theorem sortStable_map {le' : α → α → Bool} {le : β → β → Bool} {f : α → β}
    (hco : ∀ a b, le' a b = le (f a) (f b)) (l : List α) :
    (sortStable le' l).map f = sortStable le (l.map f) := by
  have hins : ∀ (x : α) (acc : List α),
      (insertS le' x acc).map f = insertS le (f x) (acc.map f) := by
    intro x acc
    induction acc with
    | nil => simp [insertS]
    | cons y ys ih =>
      simp only [insertS, List.map_cons]
      rw [hco]
      split <;> simp_all
  suffices h : ∀ (acc : List α),
      (l.foldl (fun acc x => insertS le' x acc) acc).map f =
      (l.map f).foldl (fun acc x => insertS le x acc) (acc.map f) by
    simpa [sortStable] using h []
  induction l with
  | nil => simp
  | cons x xs ih => intro acc; simp [ih, hins]

/-! ## Byte-level serialization

`JSON.stringify` / `JSON.parse` and zlib's `gzip` / `gunzip` are external
collaborators of the cache worker.  They are modelled by concrete,
executable codecs on byte lists whose only relied-upon properties are the
ones the engine needs: encoding is injective with a total parser that
inverts it and fails (returns `none`) on corrupt input. -/

/-- Little-endian base-8 digit expansion, with explicit fuel so the
definition is structural (and therefore kernel-reducible). -/
def natDigitsF : Nat → Nat → List Nat
  | 0, _ => []
  | fuel + 1, n => if n < 8 then [n] else n % 8 :: natDigitsF fuel (n / 8)

/-- Encoding of a natural number: base-8 digits terminated by an `8`. -/
def encNat (n : Nat) : List Nat :=
  natDigitsF (n + 1) n ++ [8]

/-- Decode a terminated base-8 natural, returning the remaining bytes. -/
def decNat : List Nat → Option (Nat × List Nat)
  | [] => none
  | b :: r =>
    if b = 8 then some (0, r)
    else if b < 8 then
      match decNat r with
      | some (n, r') => some (b + 8 * n, r')
      | none => none
    else none

theorem decNat_natDigitsF (fuel : Nat) :
    ∀ n r, n < fuel →
      decNat (natDigitsF fuel n ++ 8 :: r) = some (n, r) := by
  induction fuel with
  | zero => intro n r h; omega
  | succ f ih =>
    intro n r h
    by_cases h8 : n < 8
    · simp [natDigitsF, h8, decNat, show n ≠ 8 by omega]
    · have hdiv : n / 8 < n := Nat.div_lt_self (by omega) (by norm_num)
      have hd8 : ¬ n % 8 = 8 := by
        have := Nat.mod_lt n (show 0 < 8 by norm_num)
        omega
      have hlt : n % 8 < 8 := Nat.mod_lt n (by norm_num)
      simp only [natDigitsF, if_neg h8, List.cons_append, decNat,
        if_neg hd8, if_pos hlt, ih (n / 8) r (by omega)]
      rw [Nat.mod_add_div]

theorem decNat_encNat (n : Nat) (r : List Nat) :
    decNat (encNat n ++ r) = some (n, r) := by
  have h : encNat n ++ r = natDigitsF (n + 1) n ++ 8 :: r := by
    simp [encNat]
  rw [h, decNat_natDigitsF (n + 1) n r (by omega)]

/-- Sign-byte-prefixed integer encoding. -/
def encInt (i : Int) : List Nat :=
  (if i < 0 then 1 else 0) :: encNat i.natAbs

/-- Decode an integer, returning the remaining bytes. -/
def decInt : List Nat → Option (Int × List Nat)
  | 0 :: rest =>
    match decNat rest with
    | some (n, r) => some ((n : Int), r)
    | none => none
  | 1 :: rest =>
    match decNat rest with
    | some (n, r) => some (-(n : Int), r)
    | none => none
  | _ => none

theorem decInt_encInt (i : Int) (r : List Nat) :
    decInt (encInt i ++ r) = some (i, r) := by
  by_cases h : i < 0
  · simp only [encInt, if_pos h, List.cons_append, decInt, decNat_encNat]
    congr 1
    congr 1
    omega
  · simp only [encInt, if_neg h, List.cons_append, decInt, decNat_encNat]
    congr 1
    congr 1
    omega

/-- Rational encoding: numerator then denominator. -/
def encRat (q : ℚ) : List Nat :=
  encInt q.num ++ encNat q.den

/-- Decode a rational, returning the remaining bytes. -/
def decRat (bs : List Nat) : Option (ℚ × List Nat) :=
  match decInt bs with
  | some (n, r1) =>
    match decNat r1 with
    | some (d, r2) => some (mkRat n d, r2)
    | none => none
  | none => none

theorem decRat_encRat (q : ℚ) (r : List Nat) :
    decRat (encRat q ++ r) = some (q, r) := by
  simp [encRat, decRat, decInt_encInt, decNat_encNat, Rat.mkRat_self]

/-- Character encoding via the code point. -/
def encChar (c : Char) : List Nat :=
  encNat c.toNat

/-- Length-prefixed encoding of a character list. -/
def encChars (cs : List Char) : List Nat :=
  encNat cs.length ++ (cs.map encChar).flatten

/-- Decode `count` characters, returning the remaining bytes. -/
def decCharsN : Nat → List Nat → Option (List Char × List Nat)
  | 0, bs => some ([], bs)
  | count + 1, bs =>
    match decNat bs with
    | some (n, r1) =>
      match decCharsN count r1 with
      | some (cs, r2) => some (Char.ofNat n :: cs, r2)
      | none => none
    | none => none

/-- String encoding: its character list. -/
def encString (s : String) : List Nat :=
  encChars s.data

/-- Decode a string, returning the remaining bytes. -/
def decString (bs : List Nat) : Option (String × List Nat) :=
  match decNat bs with
  | some (n, r1) =>
    match decCharsN n r1 with
    | some (cs, r2) => some (String.mk cs, r2)
    | none => none
  | none => none

theorem decCharsN_encChars (cs : List Char) (r : List Nat) :
    decCharsN cs.length ((cs.map encChar).flatten ++ r) = some (cs, r) := by
  induction cs with
  | nil => simp [decCharsN]
  | cons c tl ih =>
    simp [decCharsN, encChar, decNat_encNat, ih, Char.ofNat_toNat]

theorem decString_encString (s : String) (r : List Nat) :
    decString (encString s ++ r) = some (s, r) := by
  simp only [encString, encChars, decString, List.append_assoc,
    decNat_encNat, decCharsN_encChars]

mutual
/-- Model of `JSON.stringify`: a tag-prefixed byte encoding of a JSON
value.  Modelled: the engine relies only on serialization being inverted
by `parseJSON` below, not on the concrete JSON text grammar. -/
def encJSVal : JSVal → List Nat
  | .jnull => [0]
  | .jbool b => [1, if b then 1 else 0]
  | .jnum q => 2 :: encRat q
  | .jstr s => 3 :: encString s
  | .jarr l => 4 :: encJSList l
  | .jobj l => 5 :: encJSPairs l

/-- Byte encoding of a JSON array's element list. -/
def encJSList : JSList → List Nat
  | .nil => [0]
  | .cons v tl => 1 :: (encJSVal v ++ encJSList tl)

/-- Byte encoding of a JSON object's field list. -/
def encJSPairs : JSPairs → List Nat
  | .nil => [0]
  | .cons k v tl => 1 :: (encString k ++ (encJSVal v ++ encJSPairs tl))
end

mutual
/-- Fuel-indexed decoder for JSON values; the fuel bounds the recursion
depth and any fuel at least the encoding's length suffices. -/
def decJSVal : Nat → List Nat → Option (JSVal × List Nat)
  | 0, _ => none
  | fuel + 1, bs =>
    match bs with
    | 0 :: r => some (.jnull, r)
    | 1 :: 0 :: r => some (.jbool false, r)
    | 1 :: 1 :: r => some (.jbool true, r)
    | 2 :: r =>
      match decRat r with
      | some (q, r') => some (.jnum q, r')
      | none => none
    | 3 :: r =>
      match decString r with
      | some (s, r') => some (.jstr s, r')
      | none => none
    | 4 :: r =>
      match decJSList fuel r with
      | some (l, r') => some (.jarr l, r')
      | none => none
    | 5 :: r =>
      match decJSPairs fuel r with
      | some (l, r') => some (.jobj l, r')
      | none => none
    | _ => none

/-- Fuel-indexed decoder for JSON array element lists. -/
def decJSList : Nat → List Nat → Option (JSList × List Nat)
  | 0, _ => none
  | fuel + 1, bs =>
    match bs with
    | 0 :: r => some (.nil, r)
    | 1 :: r =>
      match decJSVal fuel r with
      | some (v, r1) =>
        match decJSList fuel r1 with
        | some (tl, r2) => some (.cons v tl, r2)
        | none => none
      | none => none
    | _ => none

/-- Fuel-indexed decoder for JSON object field lists. -/
def decJSPairs : Nat → List Nat → Option (JSPairs × List Nat)
  | 0, _ => none
  | fuel + 1, bs =>
    match bs with
    | 0 :: r => some (.nil, r)
    | 1 :: r =>
      match decString r with
      | some (k, r1) =>
        match decJSVal fuel r1 with
        | some (v, r2) =>
          match decJSPairs fuel r2 with
          | some (tl, r3) => some (.cons k v tl, r3)
          | none => none
        | none => none
      | none => none
    | _ => none
end

theorem encJSVal_length_pos (v : JSVal) : 1 ≤ (encJSVal v).length := by
  cases v <;> simp [encJSVal]

theorem encJSList_length_pos (l : JSList) : 1 ≤ (encJSList l).length := by
  cases l <;> simp [encJSList]

theorem encJSPairs_length_pos (p : JSPairs) : 1 ≤ (encJSPairs p).length := by
  cases p <;> simp [encJSPairs]

theorem dec_enc_all (fuel : Nat) :
    (∀ v r, (encJSVal v).length ≤ fuel →
      decJSVal fuel (encJSVal v ++ r) = some (v, r)) ∧
    (∀ l r, (encJSList l).length ≤ fuel →
      decJSList fuel (encJSList l ++ r) = some (l, r)) ∧
    (∀ p r, (encJSPairs p).length ≤ fuel →
      decJSPairs fuel (encJSPairs p ++ r) = some (p, r)) := by
  induction fuel with
  | zero =>
    refine ⟨fun v r h => ?_, fun l r h => ?_, fun p r h => ?_⟩
    · exact absurd h (by have := encJSVal_length_pos v; omega)
    · exact absurd h (by have := encJSList_length_pos l; omega)
    · exact absurd h (by have := encJSPairs_length_pos p; omega)
  | succ n ih =>
    obtain ⟨ihv, ihl, ihp⟩ := ih
    refine ⟨fun v r h => ?_, fun l r h => ?_, fun p r h => ?_⟩
    · cases v with
      | jnull => simp [encJSVal, decJSVal]
      | jbool b => cases b <;> simp [encJSVal, decJSVal]
      | jnum q => simp [encJSVal, decJSVal, decRat_encRat]
      | jstr s => simp [encJSVal, decJSVal, decString_encString]
      | jarr l =>
        have hl : (encJSList l).length ≤ n := by
          simp only [encJSVal, List.length_cons] at h; omega
        simp [encJSVal, decJSVal, ihl l r hl]
      | jobj p =>
        have hp : (encJSPairs p).length ≤ n := by
          simp only [encJSVal, List.length_cons] at h; omega
        simp [encJSVal, decJSVal, ihp p r hp]
    · cases l with
      | nil => simp [encJSList, decJSList]
      | cons v tl =>
        have h1 := encJSVal_length_pos v
        have h2 := encJSList_length_pos tl
        simp only [encJSList, List.length_cons, List.length_append] at h
        have hv : (encJSVal v).length ≤ n := by omega
        have htl : (encJSList tl).length ≤ n := by omega
        simp [encJSList, decJSList, List.append_assoc, ihv v _ hv,
          ihl tl r htl]
    · cases p with
      | nil => simp [encJSPairs, decJSPairs]
      | cons k v tl =>
        have h1 := encJSVal_length_pos v
        have h2 := encJSPairs_length_pos tl
        simp only [encJSPairs, List.length_cons, List.length_append] at h
        have hv : (encJSVal v).length ≤ n := by omega
        have htl : (encJSPairs tl).length ≤ n := by omega
        simp [encJSPairs, decJSPairs, List.append_assoc, decString_encString,
          ihv v _ hv, ihp tl r htl]

/-- Model of `JSON.parse`: decode a full byte string to a JSON value,
failing (`none`, the model of a thrown `SyntaxError`) on anything that is
not a complete valid encoding. -/
def parseJSON (bs : List Nat) : Option JSVal :=
  match decJSVal bs.length bs with
  | some (v, []) => some v
  | _ => none

theorem parseJSON_encJSVal (v : JSVal) : parseJSON (encJSVal v) = some v := by
  have h := (dec_enc_all (encJSVal v).length).1 v [] (le_refl _)
  simp only [List.append_nil] at h
  simp [parseJSON, h]

/-- Model of zlib `gzip`: a magic-header-tagged invertible transformation.
Modelled: the engine relies only on `gunzipBytes` inverting `gzipBytes`
and rejecting bytes that are not valid compressed data. -/
def gzipBytes (bs : List Nat) : List Nat :=
  31 :: 139 :: bs

/-- Model of zlib `gunzip`; fails (`none`, a thrown error) on input that
does not carry the compression header. -/
def gunzipBytes : List Nat → Option (List Nat)
  | 31 :: 139 :: rest => some rest
  | _ => none

theorem gunzipBytes_gzipBytes (bs : List Nat) :
    gunzipBytes (gzipBytes bs) = some bs := rfl

/-! ## Association-list helpers

JS `Map` objects (`cacheIndex`, the worker maps, aggregation groups) are
modelled as association lists in insertion order: `Map.set` on a present
key updates it in place, on an absent key appends; `Map.delete` removes
the unique entry; iteration follows this order. -/

/-- `Map.get`: first (unique) binding of `k`. -/
def alGet : List (String × β) → String → Option β
  | [], _ => none
  | (k', v) :: tl, k => if k' = k then some v else alGet tl k

/-- `Map.set`: replace in place, or append when absent. -/
def alSet : List (String × β) → String → β → List (String × β)
  | [], k, v => [(k, v)]
  | (k', v') :: tl, k, v =>
    if k' = k then (k, v) :: tl else (k', v') :: alSet tl k v

/-- `Map.delete`: drop the binding of `k`. -/
def alErase : List (String × β) → String → List (String × β)
  | [], _ => []
  | e :: tl, k => if e.1 = k then alErase tl k else e :: alErase tl k

theorem alErase_eq_filter (m : List (String × β)) (k : String) :
    alErase m k = m.filter (fun e => e.1 ≠ k) := by
  induction m with
  | nil => rfl
  | cons e tl ih =>
    by_cases h : e.1 = k
    · simp [alErase, h, ih]
    · simp [alErase, h, ih]

theorem alGet_alSet_self (m : List (String × β)) (k : String) (v : β) :
    alGet (alSet m k v) k = some v := by
  induction m with
  | nil => simp [alSet, alGet]
  | cons e tl ih =>
    by_cases h : e.1 = k
    · simp [alSet, alGet, h]
    · simp [alSet, alGet, h, ih]

theorem alGet_alSet_ne (m : List (String × β)) {k k' : String} (v : β)
    (h : k' ≠ k) : alGet (alSet m k v) k' = alGet m k' := by
  have hkk : ¬ k = k' := fun hh => h hh.symm
  induction m with
  | nil => simp [alSet, alGet, hkk]
  | cons e tl ih =>
    by_cases he : e.1 = k
    · simp [alSet, alGet, he, hkk, h]
    · by_cases he' : e.1 = k'
      · simp [alSet, alGet, he, he', hkk, h]
      · simp [alSet, alGet, he, he', ih]

theorem alGet_alErase_self (m : List (String × β)) (k : String) :
    alGet (alErase m k) k = none := by
  induction m with
  | nil => simp [alErase, alGet]
  | cons e tl ih =>
    by_cases h : e.1 = k
    · simpa [alErase, alGet, h] using ih
    · simpa [alErase, alGet, h] using ih

theorem alGet_alErase_ne (m : List (String × β)) {k k' : String}
    (h : k' ≠ k) : alGet (alErase m k) k' = alGet m k' := by
  induction m with
  | nil => simp [alErase, alGet]
  | cons e tl ih =>
    have hkk : ¬ k = k' := fun hh => h hh.symm
    by_cases he : e.1 = k
    · simpa [alErase, alGet, he, hkk] using ih
    · by_cases he' : e.1 = k'
      · simp [alErase, alGet, he, he', h]
      · simpa [alErase, alGet, he, he'] using ih

theorem alGet_eq_some_of_mem_nodup {m : List (String × β)} {k : String}
    {v : β} (hnd : (m.map Prod.fst).Nodup) (hm : (k, v) ∈ m) :
    alGet m k = some v := by
  induction m with
  | nil => simp at hm
  | cons e tl ih =>
    simp only [List.map_cons, List.nodup_cons] at hnd
    rcases List.mem_cons.mp hm with rfl | hm
    · simp [alGet]
    · have : e.1 ≠ k := by
        intro h
        exact hnd.1 (h ▸ (List.mem_map.mpr ⟨(k, v), hm, rfl⟩))
      simp [alGet, this, ih hnd.2 hm]

theorem alGet_isSome_of_mem {m : List (String × β)} {k : String} {v : β}
    (hm : (k, v) ∈ m) : (alGet m k).isSome := by
  induction m with
  | nil => simp at hm
  | cons e tl ih =>
    rcases List.mem_cons.mp hm with rfl | hm
    · simp [alGet]
    · by_cases h : e.1 = k
      · simp [alGet, h]
      · simpa [alGet, h] using ih hm

/-! ## Cache engine (`CacheWorker`, src/workers/cacheWorker.js)

The worker owns an in-memory index (`cacheIndex`), an on-disk data
directory (modelled as the association list `files` from file path to
byte content), a running size counter and a configured ceiling.  Message
and progress plumbing, which carries no state of its own, is elided; each
handler becomes a state-transition function returning its result. -/

/-- `priorityOrder` table used by `evictOldCache`:
`{ low: 0, normal: 1, high: 2 }`. -/
def priorityOrder : Priority → Nat
  | .low => 0
  | .normal => 1
  | .high => 2

/-- The wire string of a priority level. -/
def priToString : Priority → String
  | .low => "low"
  | .normal => "normal"
  | .high => "high"

/-- MD5 hex digest of a string.
Modelled: `crypto.createHash('md5')` is an external library; the engine
relies only on the digest being a deterministic function of the input
string, modelled here as a 64-bit polynomial fold rendered in decimal. -/
def md5hex (s : String) : String :=
  natToDec (s.data.foldl
    (fun a c => (a * 131 + c.toNat) % 18446744073709551616) 7)

/-- `CacheWorker.generateCacheKey`: MD5 of `String(key)`. -/
def generateCacheKey (key : JSVal) : String :=
  md5hex (jsToString key)

/-- Index entry stored in `cacheIndex` by `setCacheData` (the file's
metadata, excluding the payload). -/
structure CacheInfo where
  key : JSVal
  timestamp : Nat
  ttl : Nat
  size : Nat
  compressed : Bool
  priority : Priority
  filePath : String
  deriving DecidableEq

/-- The cache worker's mutable state: index, data directory, running
size counter (a JS number, hence `Int`) and configured ceiling. -/
structure CacheState where
  cacheIndex : List (String × CacheInfo)
  files : List (String × List Nat)
  currentCacheSize : Int
  maxCacheSize : Nat
  deriving DecidableEq

/-- Options of a `cache-set` message after the destructuring defaults
(`ttl = 24h`, `compress = true`, `priority = 'normal'`) are applied. -/
structure SetOpts where
  ttl : Nat
  compress : Bool
  priority : Priority
  deriving DecidableEq

/-- The `cacheEntry` object that `setCacheData` serializes to disk; its
`size` field is still `0` at stringify time (it is updated only after
the write, in the index). -/
def mkCacheEntryObj (key value : JSVal) (now ttl : Nat) (compress : Bool)
    (priority : Priority) : JSVal :=
  .jobj (.cons "key" key (.cons "value" value
    (.cons "timestamp" (.jnum now) (.cons "ttl" (.jnum ttl)
      (.cons "compressed" (.jbool compress)
        (.cons "priority" (.jstr (priToString priority))
          (.cons "size" (.jnum 0) .nil)))))))

/-- `CacheWorker.deleteCacheEntry`: unlink the backing file (adjusting
the size counter only when the unlink succeeds, i.e. the file exists)
and drop the index entry. -/
def deleteCacheEntry (st : CacheState) (cacheKey : String) : CacheState :=
  match alGet st.cacheIndex cacheKey with
  | none => st
  | some info =>
    let hasFile := (alGet st.files info.filePath).isSome
    { st with
      cacheIndex := alErase st.cacheIndex cacheKey,
      files := if hasFile then alErase st.files info.filePath else st.files,
      currentCacheSize :=
        if hasFile then st.currentCacheSize - info.size
        else st.currentCacheSize }

/-- Sort order of `evictOldCache`: priority ascending
(`priorityOrder[a] - priorityOrder[b]`), then timestamp ascending. -/
def evictLe (a b : String × CacheInfo) : Bool :=
  if a.2.priority = b.2.priority then a.2.timestamp ≤ b.2.timestamp
  else priorityOrder a.2.priority ≤ priorityOrder b.2.priority

/-- The body of `evictOldCache`'s deletion loop: walk the sorted entry
list, stopping as soon as the running size is at or below the 70%
target (`maxCacheSize * 0.7`, compared here without rounding), deleting
otherwise; returns the final state, the deletion count and total
deleted size. -/
def evictLoop : List (String × CacheInfo) → CacheState →
    CacheState × Nat × Nat
  | [], st => (st, 0, 0)
  | (k, info) :: rest, st =>
    if 10 * st.currentCacheSize ≤ 7 * (st.maxCacheSize : Int) then (st, 0, 0)
    else
      let res := evictLoop rest (deleteCacheEntry st k)
      (res.1, res.2.1 + 1, res.2.2 + info.size)

/-- `CacheWorker.evictOldCache`: stable-sort the index entries by
(priority ascending, timestamp ascending) and delete from the front
until usage drops to 70% of the ceiling. -/
def evictOldCache (st : CacheState) : CacheState × Nat × Nat :=
  evictLoop (sortStable evictLe st.cacheIndex) st

/-- Result of a `cache-set`, as posted back by `setCacheData`. -/
structure SetResult where
  cacheKey : String
  size : Nat
  compressed : Bool
  deriving DecidableEq

/-- The byte content `setCacheData` writes for a given set request:
the serialized entry object, gzipped when `compress` is on. -/
def writtenBytes (key value : JSVal) (now : Nat) (opts : SetOpts) :
    List Nat :=
  let serialized := encJSVal
    (mkCacheEntryObj key value now opts.ttl opts.compress opts.priority)
  if opts.compress then gzipBytes serialized else serialized

/-- `CacheWorker.setCacheData`: hash the key, serialize (and optionally
compress) the entry, write the file, update index and size counter, and
run eviction when the ceiling is exceeded.  The disk write itself is
modelled as always succeeding. -/
def setCacheData (st : CacheState) (now : Nat) (key value : JSVal)
    (opts : SetOpts) : CacheState × SetResult :=
  let cacheKey := generateCacheKey key
  let written := writtenBytes key value now opts
  let sz := written.length
  let st1 : CacheState :=
    { st with
      files := alSet st.files cacheKey written,
      cacheIndex := alSet st.cacheIndex cacheKey
        ⟨key, now, opts.ttl, sz, opts.compress, opts.priority, cacheKey⟩,
      currentCacheSize := st.currentCacheSize + sz }
  let st2 :=
    if st1.currentCacheSize > (st1.maxCacheSize : Int) then
      (evictOldCache st1).1
    else st1
  (st2, ⟨cacheKey, sz, opts.compress⟩)

/-- Outcome of a `cache-get` as observed by the caller: a miss (with
the reason string used by the code), a hit carrying `data` and the
`age` metadata, or an error posted through the generic error channel. -/
inductive GetResult where
  | missNotFound : GetResult
  | missExpired : GetResult
  | missFileGone : GetResult
  | hit (data : Option JSVal) (age : Option ℚ) : GetResult
  | errorOut : GetResult
  deriving DecidableEq

/-- `CacheWorker.getCacheData`: index lookup, TTL check (expired entries
are deleted and reported as a miss), file read (a missing file drops the
index entry and reports a miss), decompression and parse (whose failures
fall through to the generic error path: the entry is kept and an error
is posted), and finally the hit carrying `cacheEntry.value` and the age
computed from the entry's own timestamp field. -/
def getCacheData (st : CacheState) (now : Nat) (key : JSVal) :
    CacheState × GetResult :=
  let cacheKey := generateCacheKey key
  match alGet st.cacheIndex cacheKey with
  | none => (st, .missNotFound)
  | some info =>
    if now - info.timestamp > info.ttl then
      (deleteCacheEntry st cacheKey, .missExpired)
    else
      match alGet st.files info.filePath with
      | none =>
        ({ st with cacheIndex := alErase st.cacheIndex cacheKey },
          .missFileGone)
      | some bytes =>
        match (if info.compressed then gunzipBytes bytes else some bytes) with
        | none => (st, .errorOut)
        | some payload =>
          match parseJSON payload with
          | none => (st, .errorOut)
          | some entry =>
            let data := match entry with
              | .jobj fields => fields.get "value"
              | _ => none
            let age : Option ℚ := match entry with
              | .jobj fields =>
                match fields.get "timestamp" with
                | some (.jnum q) => some ((now : ℚ) - q)
                | _ => none
              | _ => none
            (st, .hit data age)

/-- `CacheWorker.deleteCacheData`: hash the key and drop the entry. -/
def deleteCacheData (st : CacheState) (key : JSVal) : CacheState :=
  deleteCacheEntry st (generateCacheKey key)

theorem setCacheData_no_evict (st : CacheState) (now : Nat)
    (key v : JSVal) (opts : SetOpts)
    (hsize : st.currentCacheSize + ((writtenBytes key v now opts).length : Int)
      ≤ (st.maxCacheSize : Int)) :
    (setCacheData st now key v opts).1 =
      { st with
        files := alSet st.files (generateCacheKey key)
          (writtenBytes key v now opts),
        cacheIndex := alSet st.cacheIndex (generateCacheKey key)
          ⟨key, now, opts.ttl, (writtenBytes key v now opts).length,
            opts.compress, opts.priority, generateCacheKey key⟩,
        currentCacheSize := st.currentCacheSize +
          (writtenBytes key v now opts).length } := by
  unfold setCacheData
  simp only []
  rw [if_neg]
  omega

theorem getField_value_mkCacheEntryObj (key v : JSVal) (now ttl : Nat)
    (compress : Bool) (pri : Priority) :
    (match mkCacheEntryObj key v now ttl compress pri with
      | .jobj fields => fields.get "value"
      | _ => none) = some v := by
  simp [mkCacheEntryObj, JSPairs.get]

theorem getField_timestamp_mkCacheEntryObj (key v : JSVal) (now ttl : Nat)
    (compress : Bool) (pri : Priority) :
    (match mkCacheEntryObj key v now ttl compress pri with
      | .jobj fields => fields.get "timestamp"
      | _ => none) = some (.jnum now) := by
  simp [mkCacheEntryObj, JSPairs.get]

/-- Core round-trip property of `setCacheData` followed by
`getCacheData`, across any two keys with the same string form, provided
the write does not push the total size past the ceiling (so the set does
not trigger eviction) and the TTL has not elapsed at read time. -/
theorem setThenGet (st : CacheState) (now now2 : Nat) (k1 k2 v : JSVal)
    (opts : SetOpts)
    (hkey : jsToString k1 = jsToString k2)
    (hsize : st.currentCacheSize + ((writtenBytes k1 v now opts).length : Int)
      ≤ (st.maxCacheSize : Int))
    (httl : now2 - now ≤ opts.ttl) :
    (getCacheData (setCacheData st now k1 v opts).1 now2 k2).2 =
      .hit (some v) (some ((now2 : ℚ) - (now : ℚ))) := by
  have hgk : generateCacheKey k2 = generateCacheKey k1 := by
    unfold generateCacheKey
    rw [hkey]
  rw [setCacheData_no_evict st now k1 v opts hsize]
  unfold getCacheData
  simp only [hgk, alGet_alSet_self]
  rw [if_neg (by omega)]
  unfold writtenBytes
  by_cases hc : opts.compress
  · simp [hc, gunzipBytes_gzipBytes, parseJSON_encJSVal, mkCacheEntryObj,
      JSPairs.get]
  · simp [hc, parseJSON_encJSVal, mkCacheEntryObj, JSPairs.get]

/-- C1 (amended): for every key and JSON-serializable value, `set(key, v,
options)` immediately followed by `get(key)` — before `options.ttl` has
elapsed and with no intervening delete/clear/evict — returns found with
`data = v` unchanged, for compressed and uncompressed writes alike,
PROVIDED the write does not push the total cache size past the ceiling
(otherwise the set's own eviction pass may delete the fresh entry). -/
theorem c1_set_then_get_roundtrip (st : CacheState) (now now2 : Nat)
    (key v : JSVal) (opts : SetOpts)
    (hsize : st.currentCacheSize +
      ((writtenBytes key v now opts).length : Int) ≤ (st.maxCacheSize : Int))
    (httl : now2 - now ≤ opts.ttl) :
    (getCacheData (setCacheData st now key v opts).1 now2 key).2 =
      .hit (some v) (some ((now2 : ℚ) - (now : ℚ))) :=
  setThenGet st now now2 key key v opts rfl hsize httl

set_option maxRecDepth 40000 in
theorem c1_set_then_get_roundtrip_witness :
    (((⟨[], [], 0, 1000000⟩ : CacheState).currentCacheSize +
        ((writtenBytes (.jstr "k") (.jbool true) 3
          ⟨9, true, .normal⟩).length : Int) ≤ ((1000000 : Nat) : Int)) ∧
      (4 : Nat) - 3 ≤ 9 ∧
      (getCacheData (setCacheData ⟨[], [], 0, 1000000⟩ 3 (.jstr "k")
          (.jbool true) ⟨9, true, .normal⟩).1 4 (.jstr "k")).2 =
        .hit (some (.jbool true)) (some ((4 : ℚ) - (3 : ℚ)))) ∧
    (((⟨[], [], 0, 1000000⟩ : CacheState).currentCacheSize +
        ((writtenBytes (.jstr "k") (.jbool true) 3
          ⟨9, false, .normal⟩).length : Int) ≤ ((1000000 : Nat) : Int)) ∧
      (4 : Nat) - 3 ≤ 9 ∧
      (getCacheData (setCacheData ⟨[], [], 0, 1000000⟩ 3 (.jstr "k")
          (.jbool true) ⟨9, false, .normal⟩).1 4 (.jstr "k")).2 =
        .hit (some (.jbool true)) (some ((4 : ℚ) - (3 : ℚ)))) :=
  ⟨⟨by decide, by decide,
      c1_set_then_get_roundtrip ⟨[], [], 0, 1000000⟩ 3 4 (.jstr "k")
        (.jbool true) ⟨9, true, .normal⟩ (by decide) (by decide)⟩,
    ⟨by decide, by decide,
      c1_set_then_get_roundtrip ⟨[], [], 0, 1000000⟩ 3 4 (.jstr "k")
        (.jbool true) ⟨9, false, .normal⟩ (by decide) (by decide)⟩⟩

set_option maxRecDepth 40000 in
/-- C1 counterexample: with a 1-byte ceiling, the very `set` call evicts
the entry it just wrote (its own eviction pass runs inside `set`), so the
immediately following `get` of the same key — well within TTL — is a
miss, not a hit: the round-trip claim fails as universally stated. -/
theorem c1_counterexample :
    (getCacheData (setCacheData ⟨[], [], 0, 1⟩ 3 (.jstr "k") (.jbool true)
        ⟨9, true, .normal⟩).1 3 (.jstr "k")).2 = .missNotFound ∧
    ∀ age, (getCacheData (setCacheData ⟨[], [], 0, 1⟩ 3 (.jstr "k")
        (.jbool true) ⟨9, true, .normal⟩).1 3 (.jstr "k")).2 ≠
      .hit (some (.jbool true)) age := by
  have h1 : (getCacheData (setCacheData ⟨[], [], 0, 1⟩ 3 (.jstr "k")
      (.jbool true) ⟨9, true, .normal⟩).1 3 (.jstr "k")).2 =
      .missNotFound := by decide
  refine ⟨h1, fun age h => ?_⟩
  rw [h1] at h
  exact GetResult.noConfusion h

/-- C4 (amended): on a fresh (non-expired) index entry, a `get` whose
backing FILE IS MISSING drops the entry from the index and returns a
miss; but a read whose bytes FAIL TO DECOMPRESS or FAIL TO PARSE goes
down the generic error path: the error is surfaced to the caller and the
entry is NOT deleted (only `ENOENT` is converted to a self-healing
miss). -/
theorem c4_corrupt_read_behaviour (st : CacheState) (now : Nat)
    (key : JSVal) (info : CacheInfo)
    (hidx : alGet st.cacheIndex (generateCacheKey key) = some info)
    (hfresh : ¬ now - info.timestamp > info.ttl) :
    (alGet st.files info.filePath = none →
      getCacheData st now key =
        ({ st with cacheIndex := alErase st.cacheIndex (generateCacheKey key) },
          .missFileGone)) ∧
    (∀ bytes, alGet st.files info.filePath = some bytes →
      (if info.compressed then gunzipBytes bytes else some bytes) = none →
      getCacheData st now key = (st, .errorOut)) ∧
    (∀ bytes payload, alGet st.files info.filePath = some bytes →
      (if info.compressed then gunzipBytes bytes else some bytes) =
        some payload →
      parseJSON payload = none →
      getCacheData st now key = (st, .errorOut)) := by
  refine ⟨fun hfile => ?_, fun bytes hfile hgz => ?_,
    fun bytes payload hfile hgz hp => ?_⟩
  · simp only [getCacheData, hidx, if_neg hfresh, hfile]
  · simp only [getCacheData, hidx, if_neg hfresh, hfile, hgz]
  · simp only [getCacheData, hidx, if_neg hfresh, hfile, hgz, hp]

set_option maxRecDepth 40000 in
theorem c4_corrupt_read_behaviour_witness :
    (alGet (⟨[("1024", ⟨.jstr "k", 3, 9, 3, true, .normal, "1024"⟩)],
        [("1024", [9, 9, 9])], 3, 100⟩ : CacheState).cacheIndex
      (generateCacheKey (.jstr "k")) =
        some ⟨.jstr "k", 3, 9, 3, true, .normal, "1024"⟩) ∧
    (¬ (4 : Nat) - 3 > 9) ∧
    (∀ bytes, alGet (⟨[("1024", ⟨.jstr "k", 3, 9, 3, true, .normal, "1024"⟩)],
        [("1024", [9, 9, 9])], 3, 100⟩ : CacheState).files "1024" = some bytes →
      (if true then gunzipBytes bytes else some bytes) = none →
      getCacheData ⟨[("1024", ⟨.jstr "k", 3, 9, 3, true, .normal, "1024"⟩)],
        [("1024", [9, 9, 9])], 3, 100⟩ 4 (.jstr "k") =
        (⟨[("1024", ⟨.jstr "k", 3, 9, 3, true, .normal, "1024"⟩)],
          [("1024", [9, 9, 9])], 3, 100⟩, .errorOut)) :=
  ⟨by decide, by decide,
    (c4_corrupt_read_behaviour
      ⟨[("1024", ⟨.jstr "k", 3, 9, 3, true, .normal, "1024"⟩)],
        [("1024", [9, 9, 9])], 3, 100⟩ 4 (.jstr "k")
      ⟨.jstr "k", 3, 9, 3, true, .normal, "1024"⟩
      (by decide) (by decide)).2.1⟩

set_option maxRecDepth 40000 in
/-- C4 counterexample: a stored entry whose bytes fail to decompress is
NOT deleted and the failure IS surfaced as an error — `get` returns the
generic error outcome and the index still holds the entry, contradicting
the claim that the entry is dropped and a plain miss returned. -/
theorem c4_counterexample :
    (getCacheData ⟨[("1024", ⟨.jstr "k", 3, 9, 3, true, .normal, "1024"⟩)],
        [("1024", [9, 9, 9])], 3, 100⟩ 4 (.jstr "k")).2 = .errorOut ∧
    (getCacheData ⟨[("1024", ⟨.jstr "k", 3, 9, 3, true, .normal, "1024"⟩)],
        [("1024", [9, 9, 9])], 3, 100⟩ 4 (.jstr "k")).1.cacheIndex =
      [("1024", ⟨.jstr "k", 3, 9, 3, true, .normal, "1024"⟩)] := by
  constructor
  · decide
  · decide

/-- C10: cache entries are addressed by the digest of `String(key)`, so
two keys with equal string form (such as the number `123` and the string
`"123"`) denote the same entry: they hash alike, a set under one is
visible to a get under the other (its value returned unchanged), the set
overwrites the other's index slot, and a delete under one removes the
entry under both. -/
theorem c10_same_string_same_entry (k1 k2 : JSVal)
    (h : jsToString k1 = jsToString k2) :
    generateCacheKey k1 = generateCacheKey k2 ∧
    (∀ st now now2 v opts,
      st.currentCacheSize + ((writtenBytes k1 v now opts).length : Int) ≤
        (st.maxCacheSize : Int) →
      now2 - now ≤ opts.ttl →
      (getCacheData (setCacheData st now k1 v opts).1 now2 k2).2 =
        .hit (some v) (some ((now2 : ℚ) - (now : ℚ)))) ∧
    (∀ st now v opts,
      st.currentCacheSize + ((writtenBytes k1 v now opts).length : Int) ≤
        (st.maxCacheSize : Int) →
      alGet (setCacheData st now k1 v opts).1.cacheIndex
          (generateCacheKey k2) =
        some ⟨k1, now, opts.ttl, (writtenBytes k1 v now opts).length,
          opts.compress, opts.priority, generateCacheKey k1⟩) ∧
    (∀ st, alGet (deleteCacheData st k1).cacheIndex
      (generateCacheKey k2) = none) := by
  have hgk : generateCacheKey k1 = generateCacheKey k2 := by
    unfold generateCacheKey
    rw [h]
  refine ⟨hgk, fun st now now2 v opts hsize httl =>
    setThenGet st now now2 k1 k2 v opts h hsize httl,
    fun st now v opts hsize => ?_, fun st => ?_⟩
  · rw [setCacheData_no_evict st now k1 v opts hsize]
    simp only [← hgk, alGet_alSet_self]
  · unfold deleteCacheData deleteCacheEntry
    cases hd : alGet st.cacheIndex (generateCacheKey k1) with
    | none => rw [← hgk]; exact hd
    | some info => simp only [← hgk, alGet_alErase_self]

set_option maxRecDepth 40000 in
theorem c10_same_string_same_entry_witness :
    jsToString (.jnum 123) = jsToString (.jstr "123") ∧
    generateCacheKey (.jnum 123) = generateCacheKey (.jstr "123") :=
  ⟨by decide, (c10_same_string_same_entry (.jnum 123) (.jstr "123")
    (by decide)).1⟩

theorem pairwise_of_forall_rel {α : Type _} {R : α → α → Prop}
    (h : ∀ a b, R a b) : ∀ l : List α, l.Pairwise R := by
  intro l
  induction l with
  | nil => exact List.Pairwise.nil
  | cons x xs ih => exact List.Pairwise.cons (fun b _ => h x b) ih

theorem priorityOrder_inj (p q : Priority) :
    priorityOrder p = priorityOrder q ↔ p = q := by
  cases p <;> cases q <;> simp [priorityOrder]

theorem evictLe_trans (a b c : String × CacheInfo)
    (hab : evictLe a b = true) (hbc : evictLe b c = true) :
    evictLe a c = true := by
  unfold evictLe at *
  by_cases h1 : a.2.priority = b.2.priority <;>
    by_cases h2 : b.2.priority = c.2.priority
  · rw [if_pos h1] at hab
    rw [if_pos h2] at hbc
    rw [if_pos (h1.trans h2)]
    simp only [decide_eq_true_eq] at *
    omega
  · rw [if_pos h1] at hab
    rw [if_neg h2] at hbc
    rw [if_neg (h1 ▸ h2), h1]
    exact hbc
  · rw [if_neg h1] at hab
    rw [if_pos h2] at hbc
    rw [if_neg (fun hh => h1 (hh.trans h2.symm)), ← h2]
    exact hab
  · rw [if_neg h1] at hab
    rw [if_neg h2] at hbc
    simp only [decide_eq_true_eq] at hab hbc
    by_cases h3 : a.2.priority = c.2.priority
    · rw [if_pos h3]
      have hbc' : priorityOrder b.2.priority ≠ priorityOrder c.2.priority :=
        fun hh => h2 ((priorityOrder_inj _ _).mp hh)
      have hab' : priorityOrder a.2.priority ≠ priorityOrder b.2.priority :=
        fun hh => h1 ((priorityOrder_inj _ _).mp hh)
      have := (priorityOrder_inj a.2.priority c.2.priority).mpr h3
      omega
    · rw [if_neg h3]
      simp only [decide_eq_true_eq]
      omega

theorem evictLe_total (a b : String × CacheInfo) :
    evictLe a b = true ∨ evictLe b a = true := by
  unfold evictLe
  by_cases h : a.2.priority = b.2.priority
  · rw [if_pos h, if_pos h.symm]
    simp only [decide_eq_true_eq]
    omega
  · rw [if_neg h, if_neg (fun hh => h hh.symm)]
    simp only [decide_eq_true_eq]
    omega

theorem evictLe_not_reversed (d r : String × CacheInfo)
    (h : evictLe d r = true) :
    ¬ (priorityOrder r.2.priority < priorityOrder d.2.priority ∨
      (priorityOrder r.2.priority = priorityOrder d.2.priority ∧
        r.2.timestamp < d.2.timestamp)) := by
  unfold evictLe at h
  by_cases hp : d.2.priority = r.2.priority
  · rw [if_pos hp] at h
    simp only [decide_eq_true_eq] at h
    rw [hp]
    omega
  · rw [if_neg hp] at h
    simp only [decide_eq_true_eq] at h
    have : priorityOrder d.2.priority ≠ priorityOrder r.2.priority :=
      fun hh => hp ((priorityOrder_inj _ _).mp hh)
    intro hcon
    rcases hcon with hlt | ⟨heq, _⟩
    · omega
    · exact this heq.symm

/-- Total size recorded in a list of index entries. -/
def indexTotalSize (idx : List (String × CacheInfo)) : Int :=
  (idx.map (fun e => ((e.2.size : Int)))).sum

/-- The consistency invariant the cache worker maintains between its
index, its data directory and its size counter: index keys are unique,
every entry's `filePath` is its own key and its backing file exists, and
the size counter is the sum of the recorded entry sizes. -/
def ConsistentCache (st : CacheState) : Prop :=
  (st.cacheIndex.map Prod.fst).Nodup ∧
  (∀ e ∈ st.cacheIndex, e.2.filePath = e.1 ∧ (alGet st.files e.1).isSome) ∧
  st.currentCacheSize = indexTotalSize st.cacheIndex

theorem indexTotalSize_perm {l1 l2 : List (String × CacheInfo)}
    (h : l1 ~ l2) : indexTotalSize l1 = indexTotalSize l2 :=
  (h.map _).sum_eq

theorem evictLoop_spec :
    ∀ (entries : List (String × CacheInfo)) (st : CacheState),
      st.cacheIndex ~ entries →
      (entries.map Prod.fst).Nodup →
      (∀ e ∈ entries, e.2.filePath = e.1 ∧ (alGet st.files e.1).isSome) →
      st.currentCacheSize = indexTotalSize entries →
      ∃ n, (evictLoop entries st).1.cacheIndex ~ entries.drop n ∧
        (evictLoop entries st).1.currentCacheSize =
          indexTotalSize (entries.drop n) ∧
        (evictLoop entries st).1.maxCacheSize = st.maxCacheSize ∧
        (10 * (evictLoop entries st).1.currentCacheSize ≤
            7 * ((evictLoop entries st).1.maxCacheSize : Int) ∨
          entries.drop n = []) := by
  intro entries
  induction entries with
  | nil =>
    intro st hperm _ _ htotal
    exact ⟨0, by simpa [evictLoop] using hperm,
      by simpa [evictLoop] using htotal, rfl, Or.inr rfl⟩
  | cons e rest ih =>
    intro st hperm hnodup hfiles htotal
    obtain ⟨k, i⟩ := e
    by_cases hstop : 10 * st.currentCacheSize ≤ 7 * (st.maxCacheSize : Int)
    · have hev : evictLoop ((k, i) :: rest) st = (st, 0, 0) := by
        rw [evictLoop.eq_def]
        simp only [if_pos hstop]
      exact ⟨0, by rw [hev]; exact hperm, by rw [hev]; exact htotal,
        by rw [hev], Or.inl (by rw [hev]; exact hstop)⟩
    · have hkmem : (k, i) ∈ st.cacheIndex := hperm.mem_iff.mpr (by simp)
      have hidxnodup : (st.cacheIndex.map Prod.fst).Nodup :=
        ((hperm.map Prod.fst).nodup_iff).mpr hnodup
      have halget : alGet st.cacheIndex k = some i :=
        alGet_eq_some_of_mem_nodup hidxnodup hkmem
      have hkfile := hfiles (k, i) (by simp)
      have hpath : i.filePath = k := hkfile.1
      have hfsome : (alGet st.files i.filePath).isSome = true := by
        rw [hpath]; exact hkfile.2
      have hnodup' : (k :: rest.map Prod.fst).Nodup := by simpa using hnodup
      have hknotin : k ∉ rest.map Prod.fst := (List.nodup_cons.mp hnodup').1
      set st' := deleteCacheEntry st k with hst'
      have hst'eq : st' = { st with
          cacheIndex := alErase st.cacheIndex k,
          files := alErase st.files i.filePath,
          currentCacheSize := st.currentCacheSize - i.size } := by
        rw [hst']
        unfold deleteCacheEntry
        rw [halget]
        simp [hfsome]
      have hperm' : st'.cacheIndex ~ rest := by
        rw [hst'eq]
        simp only [alErase_eq_filter]
        have h1 : st.cacheIndex.filter (fun e => e.1 ≠ k) ~
            ((k, i) :: rest).filter (fun e => e.1 ≠ k) := hperm.filter _
        have h2 : ((k, i) :: rest).filter (fun e => e.1 ≠ k) = rest := by
          rw [List.filter_cons, if_neg (by simp)]
          refine List.filter_eq_self.mpr (fun e he => ?_)
          have hne : e.1 ≠ k := fun hh =>
            hknotin (hh ▸ List.mem_map_of_mem Prod.fst he)
          simpa using hne
        rw [h2] at h1
        exact h1
      have hfiles' : ∀ e ∈ rest, e.2.filePath = e.1 ∧
          (alGet st'.files e.1).isSome := by
        intro e he
        refine ⟨(hfiles e (by simp [he])).1, ?_⟩
        rw [hst'eq]
        simp only
        have hne : e.1 ≠ k := fun hh =>
          hknotin (hh ▸ List.mem_map_of_mem Prod.fst he)
        rw [hpath, alGet_alErase_ne st.files hne]
        exact (hfiles e (by simp [he])).2
      have htotal' : st'.currentCacheSize = indexTotalSize rest := by
        rw [hst'eq]
        simp only
        rw [htotal]
        simp [indexTotalSize]
      obtain ⟨n, hp, ht, hm, hd⟩ := ih st' hperm'
        (List.nodup_cons.mp hnodup').2 hfiles' htotal'
      have hloop : evictLoop ((k, i) :: rest) st =
          ((evictLoop rest st').1,
            (evictLoop rest st').2.1 + 1, (evictLoop rest st').2.2 + i.size) := by
        rw [evictLoop.eq_def]
        simp only [if_neg hstop]
      refine ⟨n + 1, ?_, ?_, ?_, ?_⟩
      · rw [hloop]; simpa using hp
      · rw [hloop]; simpa using ht
      · rw [hloop]
        simp only
        rw [hm, hst'eq]
      · rw [hloop]
        simpa using hd

/-- C3: on a consistent cache whose total size exceeds the ceiling,
`evictOldCache` walks the entries in (priority ascending, then timestamp
ascending, i.e. oldest first) order and stops at the 70% target, so
afterwards the total size is at or below the ceiling, and no entry was
deleted while an entry of strictly lower priority — or of equal priority
and strictly older timestamp — was retained. -/
theorem c3_evict_bounded_and_fair (st : CacheState)
    (hcons : ConsistentCache st)
    (hover : st.currentCacheSize > (st.maxCacheSize : Int)) :
    (evictOldCache st).1.currentCacheSize ≤ (st.maxCacheSize : Int) ∧
    ∀ kd infod, (kd, infod) ∈ st.cacheIndex →
      alGet (evictOldCache st).1.cacheIndex kd = none →
      ∀ kr infor, (kr, infor) ∈ (evictOldCache st).1.cacheIndex →
        ¬ (priorityOrder infor.priority < priorityOrder infod.priority ∨
          (priorityOrder infor.priority = priorityOrder infod.priority ∧
            infor.timestamp < infod.timestamp)) := by
  obtain ⟨hnodup, hfiles, htotal⟩ := hcons
  have hperm : st.cacheIndex ~ sortStable evictLe st.cacheIndex :=
    (sortStable_perm evictLe st.cacheIndex).symm
  have hnodup' : ((sortStable evictLe st.cacheIndex).map Prod.fst).Nodup :=
    ((hperm.map Prod.fst).nodup_iff).mp hnodup
  have hfiles' : ∀ e ∈ sortStable evictLe st.cacheIndex,
      e.2.filePath = e.1 ∧ (alGet st.files e.1).isSome :=
    fun e he => hfiles e (hperm.mem_iff.mpr he)
  have htotal' : st.currentCacheSize =
      indexTotalSize (sortStable evictLe st.cacheIndex) :=
    htotal.trans (indexTotalSize_perm hperm)
  obtain ⟨n, hp, ht, hm, hd⟩ := evictLoop_spec
    (sortStable evictLe st.cacheIndex) st hperm hnodup' hfiles' htotal'
  have heq : (evictOldCache st).1 =
      (evictLoop (sortStable evictLe st.cacheIndex) st).1 := rfl
  constructor
  · rw [heq]
    rcases hd with hle | hempty
    · rw [hm] at hle
      omega
    · rw [hempty] at ht
      simp [indexTotalSize] at ht
      rw [ht]
      omega
  · intro kd infod hmemd hgone kr infor hmemr
    rw [heq] at hgone hmemr
    have hpair : (sortStable evictLe st.cacheIndex).Pairwise
        (fun a b => evictLe a b = true) := by
      have h := @sortStable_pairwise _ evictLe (fun _ _ => True)
        st.cacheIndex
        (fun a b c _ _ _ hab hbc => evictLe_trans a b c hab hbc)
        (fun a b _ _ => evictLe_total a b)
        (pairwise_of_forall_rel
          (fun _ _ => ⟨fun _ => trivial, fun _ => trivial⟩) _)
      exact h.imp (fun h' => h'.1)
    have hmementr : (kd, infod) ∈ sortStable evictLe st.cacheIndex :=
      hperm.mem_iff.mp hmemd
    have hmemdrop : (kr, infor) ∈ (sortStable evictLe st.cacheIndex).drop n :=
      hp.mem_iff.mp hmemr
    have hnotdrop : (kd, infod) ∉ (sortStable evictLe st.cacheIndex).drop n := by
      intro hmem
      have hmem' : (kd, infod) ∈
          (evictLoop (sortStable evictLe st.cacheIndex) st).1.cacheIndex :=
        hp.mem_iff.mpr hmem
      have hsome := alGet_isSome_of_mem hmem'
      rw [hgone] at hsome
      simp at hsome
    have hmemtake : (kd, infod) ∈ (sortStable evictLe st.cacheIndex).take n := by
      have hsplit : (kd, infod) ∈ (sortStable evictLe st.cacheIndex).take n ++
          (sortStable evictLe st.cacheIndex).drop n := by
        rw [List.take_append_drop]
        exact hmementr
      rcases List.mem_append.mp hsplit with h | h
      · exact h
      · exact absurd h hnotdrop
    have hpair' : ((sortStable evictLe st.cacheIndex).take n ++
        (sortStable evictLe st.cacheIndex).drop n).Pairwise
        (fun a b => evictLe a b = true) := by
      rw [List.take_append_drop]
      exact hpair
    have hled : evictLe (kd, infod) (kr, infor) = true :=
      (List.pairwise_append.mp hpair').2.2 _ hmemtake _ hmemdrop
    exact evictLe_not_reversed _ _ hled

set_option maxRecDepth 40000 in
theorem c3_evict_bounded_and_fair_witness :
    (ConsistentCache ⟨[("a", ⟨.jnull, 5, 99, 6, false, .normal, "a"⟩),
        ("b", ⟨.jnull, 2, 99, 7, false, .low, "b"⟩)],
      [("a", [1]), ("b", [2])], 13, 10⟩ ∧
      (13 : Int) > ((10 : Nat) : Int)) ∧
    ((evictOldCache ⟨[("a", ⟨.jnull, 5, 99, 6, false, .normal, "a"⟩),
        ("b", ⟨.jnull, 2, 99, 7, false, .low, "b"⟩)],
      [("a", [1]), ("b", [2])], 13, 10⟩).1.currentCacheSize ≤
        ((10 : Nat) : Int) ∧
      ∀ kd infod, (kd, infod) ∈
          (⟨[("a", ⟨.jnull, 5, 99, 6, false, .normal, "a"⟩),
            ("b", ⟨.jnull, 2, 99, 7, false, .low, "b"⟩)],
          [("a", [1]), ("b", [2])], 13, 10⟩ : CacheState).cacheIndex →
        alGet (evictOldCache ⟨[("a", ⟨.jnull, 5, 99, 6, false, .normal, "a"⟩),
            ("b", ⟨.jnull, 2, 99, 7, false, .low, "b"⟩)],
          [("a", [1]), ("b", [2])], 13, 10⟩).1.cacheIndex kd = none →
        ∀ kr infor, (kr, infor) ∈
            (evictOldCache ⟨[("a", ⟨.jnull, 5, 99, 6, false, .normal, "a"⟩),
              ("b", ⟨.jnull, 2, 99, 7, false, .low, "b"⟩)],
            [("a", [1]), ("b", [2])], 13, 10⟩).1.cacheIndex →
          ¬ (priorityOrder infor.priority < priorityOrder infod.priority ∨
            (priorityOrder infor.priority = priorityOrder infod.priority ∧
              infor.timestamp < infod.timestamp))) :=
  ⟨⟨by unfold ConsistentCache; decide, by decide⟩,
    c3_evict_bounded_and_fair
      ⟨[("a", ⟨.jnull, 5, 99, 6, false, .normal, "a"⟩),
        ("b", ⟨.jnull, 2, 99, 7, false, .low, "b"⟩)],
      [("a", [1]), ("b", [2])], 13, 10⟩
      (by unfold ConsistentCache; decide)
      (by decide)⟩

/-! ## Task scheduler (`WorkerPool`, src/main/workerPool.js)

The pool owns a `workers` map (id → worker record), the `availableWorkers`
and `busyWorkers` maps (modelled as id lists in `Map` insertion order over
a single `workers` list, since the JS maps alias the same mutable worker
objects), a priority-sorted task queue, and the shutdown flag.  Worker
threads themselves are external; their lifecycle events (`result`,
`error`) enter the model through `completeTask` / `failTask`, and promise
settlements are modelled as explicit `SettleEvent`s. -/

/-- The executor kinds of `workerTypes`. -/
inductive WorkerType where
  | parser : WorkerType
  | processor : WorkerType
  | cache : WorkerType
  deriving DecidableEq

/-- A queued or in-flight task (the fields of the task object created by
`executeTask` that the scheduler's control flow reads). -/
structure TaskModel where
  id : Nat
  wtype : WorkerType
  priority : Priority
  createdAt : Nat
  deriving DecidableEq

/-- One worker record of the `workers` map. -/
structure WorkerM where
  id : Nat
  wtype : WorkerType
  busy : Bool
  createdAtW : Nat
  lastUsed : Nat
  taskCount : Nat
  currentTask : Option TaskModel
  deriving DecidableEq

/-- The pool state. -/
structure PoolState where
  workers : List WorkerM
  available : List Nat
  busyIds : List Nat
  taskQueue : List TaskModel
  nextWorkerId : Nat
  isShuttingDown : Bool
  maxWorkers : Nat
  minWorkers : Nat
  deriving DecidableEq

/-- A promise settlement observed by a task's caller. -/
inductive SettleEvent where
  | resolvedEv (taskId : Nat) : SettleEvent
  | rejectedEv (taskId : Nat) : SettleEvent
  deriving DecidableEq

/-- Look up a worker record by id. -/
def findWorker (st : PoolState) (id : Nat) : Option WorkerM :=
  st.workers.find? (fun w => w.id = id)

/-- The worker records of `availableWorkers`, in insertion order. -/
def availList (st : PoolState) : List WorkerM :=
  st.available.filterMap (findWorker st)

/-- `WorkerPool.findAvailableWorker`: first idle worker of the matching
type, otherwise the first idle worker of any type, otherwise none. -/
def findAvailableWorker (st : PoolState) (t : WorkerType) : Option WorkerM :=
  match (availList st).find? (fun w => w.wtype = t) with
  | some w => some w
  | none => (availList st).head?

/-- `WorkerPool.createWorker` (successful path, the caller having checked
the shutdown flag): append a fresh idle worker of the given type. -/
def createWorkerM (st : PoolState) (t : WorkerType) (now : Nat) :
    PoolState × WorkerM :=
  let w : WorkerM := ⟨st.nextWorkerId, t, false, now, now, 0, none⟩
  ({ st with workers := st.workers ++ [w],
             available := st.available ++ [w.id],
             nextWorkerId := st.nextWorkerId + 1 }, w)

/-- `WorkerPool.assignTaskToWorker`: mark the worker busy with the task,
move it from the available to the busy map, and post the task message. -/
def assignTaskToWorker (st : PoolState) (w : WorkerM) (t : TaskModel)
    (now : Nat) : PoolState :=
  { st with
    workers := st.workers.map (fun u =>
      if u.id = w.id then
        { u with busy := true, currentTask := some t, lastUsed := now,
                 taskCount := u.taskCount + 1 }
      else u),
    available := st.available.filter (fun id => id ≠ w.id),
    busyIds := st.busyIds ++ [w.id] }

/-- `WorkerPool.assignTask`: look at the queue head only; prefer an idle
worker (matching type first, then any), else create a worker of the
task's type when the pool is below its maximum (`createWorker` throws —
is a no-op here — while shutting down), else leave the task queued. -/
def assignTask (st : PoolState) (now : Nat) : PoolState :=
  match st.taskQueue with
  | [] => st
  | t :: rest =>
    match findAvailableWorker st t.wtype with
    | some w => assignTaskToWorker { st with taskQueue := rest } w t now
    | none =>
      if st.workers.length < st.maxWorkers then
        if st.isShuttingDown then st
        else
          let cw := createWorkerM st t.wtype now
          assignTaskToWorker { cw.1 with taskQueue := rest } cw.2 t now
      else st

/-- The queue comparator of `executeTask`:
`priorityOrder[b.priority] - priorityOrder[a.priority]` with the table
`{ high: 3, normal: 2, low: 1 }`, i.e. descending priority. -/
def poolPriorityVal : Priority → Nat
  | .high => 3
  | .normal => 2
  | .low => 1

/-- The comparator as a boolean `le` (comparator value at most 0). -/
def taskLe (a b : TaskModel) : Bool :=
  poolPriorityVal b.priority ≤ poolPriorityVal a.priority

/-- `WorkerPool.executeTask`: push the new task, re-sort the whole queue
by priority with the stable `Array.prototype.sort`, then run an
assignment pass. -/
def executeTask (st : PoolState) (t : TaskModel) (now : Nat) : PoolState :=
  assignTask
    { st with taskQueue := sortStable taskLe (st.taskQueue ++ [t]) } now

/-- `WorkerPool.releaseWorker`: mark idle, clear the current task, move
back to the available map. -/
def releaseWorker (st : PoolState) (w : WorkerM) (now : Nat) : PoolState :=
  { st with
    workers := st.workers.map (fun u =>
      if u.id = w.id then
        { u with busy := false, currentTask := none, lastUsed := now }
      else u),
    busyIds := st.busyIds.filter (fun id => id ≠ w.id),
    available := st.available ++ [w.id] }

/-- `WorkerPool.completeTask`: release the worker, resolve the task's
promise, run another assignment pass. -/
def completeTask (st : PoolState) (w : WorkerM) (t : TaskModel)
    (now : Nat) : PoolState × List SettleEvent :=
  (assignTask (releaseWorker st w now) now, [.resolvedEv t.id])

/-- `WorkerPool.failTask`: release the worker, reject the task's
promise, run another assignment pass. -/
def failTask (st : PoolState) (w : WorkerM) (t : TaskModel)
    (now : Nat) : PoolState × List SettleEvent :=
  (assignTask (releaseWorker st w now) now, [.rejectedEv t.id])

/-- The start of `WorkerPool.shutdown`: raise the shutdown flag (after
which the busy-wait loop polls until `busyWorkers` is empty). -/
def shutdownBegin (st : PoolState) : PoolState :=
  { st with isShuttingDown := true }

/-- The tail of `WorkerPool.shutdown`, reached once no worker is busy:
terminate every worker and clear all maps and the queue.  The returned
settlement list records every promise settled during this step — the
code settles none: queued tasks are simply discarded. -/
def shutdownCleanup (st : PoolState) : PoolState × List SettleEvent :=
  ({ st with workers := [], available := [], busyIds := [],
             taskQueue := [] }, [])

theorem taskLe_trans (a b c : TaskModel) (hab : taskLe a b = true)
    (hbc : taskLe b c = true) : taskLe a c = true := by
  unfold taskLe at *
  simp only [decide_eq_true_eq] at *
  omega

theorem taskLe_total (a b : TaskModel) :
    taskLe a b = true ∨ taskLe b a = true := by
  unfold taskLe
  simp only [decide_eq_true_eq]
  omega

/-- The invariant the scheduler maintains on its task queue: sorted by
descending priority, and FIFO by submission time within a priority
level. -/
def QueueInv (q : List TaskModel) : Prop :=
  q.Pairwise (fun a b => taskLe a b = true ∧
    (poolPriorityVal a.priority = poolPriorityVal b.priority →
      a.createdAt ≤ b.createdAt))

/-- Pushing a freshly created task (its `createdAt` at least every queued
task's) and re-sorting with the stable sort preserves the queue
invariant. -/
theorem queueInv_enqueue (q : List TaskModel) (t : TaskModel)
    (hinv : QueueInv q)
    (hnew : ∀ u ∈ q, u.createdAt ≤ t.createdAt) :
    QueueInv (sortStable taskLe (q ++ [t])) := by
  refine sortStable_pairwise
    (fun a b c _ _ _ hab hbc => taskLe_trans a b c hab hbc)
    (fun a b _ _ => taskLe_total a b) ?_
  rw [List.pairwise_append]
  refine ⟨?_, List.pairwise_singleton _ _, ?_⟩
  · refine hinv.imp ?_
    intro a b hab
    refine ⟨fun _ => hab.2, fun hnle => absurd hab.1 hnle⟩
  · intro a ha b hb
    rw [List.mem_singleton] at hb
    subst hb
    constructor
    · intro _ heq
      exact hnew a ha
    · intro hnle heq
      unfold taskLe at hnle
      simp only [decide_eq_true_eq] at hnle
      omega

theorem queueInv_head (t : TaskModel) (rest : List TaskModel)
    (hinv : QueueInv (t :: rest)) :
    ∀ u ∈ t :: rest,
      poolPriorityVal u.priority ≤ poolPriorityVal t.priority ∧
      (poolPriorityVal u.priority = poolPriorityVal t.priority →
        t.createdAt ≤ u.createdAt) := by
  intro u hu
  rcases List.mem_cons.mp hu with rfl | hu
  · exact ⟨le_refl _, fun _ => le_refl _⟩
  · have h := List.rel_of_pairwise_cons hinv hu
    have h1 := h.1
    unfold taskLe at h1
    simp only [decide_eq_true_eq] at h1
    exact ⟨h1, fun heq => h.2 heq.symm⟩

theorem mem_availList_mem_workers {st : PoolState} {w : WorkerM}
    (h : w ∈ availList st) : w ∈ st.workers := by
  unfold availList at h
  obtain ⟨id, _, hfind⟩ := List.mem_filterMap.mp h
  exact List.mem_of_find?_eq_some hfind

theorem findAvailableWorker_mem {st : PoolState} {ty : WorkerType}
    {w : WorkerM} (h : findAvailableWorker st ty = some w) :
    w ∈ st.workers := by
  unfold findAvailableWorker at h
  cases hf : (availList st).find? (fun u => u.wtype = ty) with
  | some u =>
    rw [hf] at h
    cases h
    exact mem_availList_mem_workers (List.mem_of_find?_eq_some hf)
  | none =>
    rw [hf] at h
    cases hh : (availList st).head? with
    | none => rw [hh] at h; cases h
    | some u =>
      rw [hh] at h
      cases h
      exact mem_availList_mem_workers (List.mem_of_mem_head? hh)

theorem assignTaskToWorker_holds_task (st : PoolState) (w : WorkerM)
    (t : TaskModel) (now : Nat) (hw : w ∈ st.workers) :
    ∃ u ∈ (assignTaskToWorker st w t now).workers,
      u.currentTask = some t := by
  refine ⟨{ w with busy := true, currentTask := some t, lastUsed := now, taskCount := w.taskCount + 1 }, ?_, rfl⟩
  unfold assignTaskToWorker
  simp only
  exact List.mem_map.mpr ⟨w, hw, by simp⟩

/-- C2 (amended): on a queue satisfying the scheduler's invariant, an
assignment pass pops the head task, which has maximal priority and, among
tasks of equal priority, the least submission time (strict FIFO); the
task goes to the first idle worker of MATCHING kind when one exists, but
OTHERWISE TO THE FIRST IDLE WORKER OF ANY KIND (the code does not create
a matching worker while a mismatched idle one exists); only when no idle
worker exists at all and the pool is below its maximum is a new worker
of the task's kind created and used; otherwise the task stays queued.
Submission (`executeTask`) preserves the queue invariant. -/
theorem c2_assignment_policy (st : PoolState) (now : Nat) (t : TaskModel)
    (rest : List TaskModel)
    (hq : st.taskQueue = t :: rest)
    (hinv : QueueInv st.taskQueue) :
    (∀ u ∈ st.taskQueue,
      poolPriorityVal u.priority ≤ poolPriorityVal t.priority ∧
      (poolPriorityVal u.priority = poolPriorityVal t.priority →
        t.createdAt ≤ u.createdAt)) ∧
    (∀ w, findAvailableWorker st t.wtype = some w →
      assignTask st now =
        assignTaskToWorker { st with taskQueue := rest } w t now) ∧
    ((∃ w ∈ availList st, w.wtype = t.wtype) →
      ∃ w, findAvailableWorker st t.wtype = some w ∧ w.wtype = t.wtype) ∧
    ((∀ w ∈ availList st, w.wtype ≠ t.wtype) →
      findAvailableWorker st t.wtype = (availList st).head?) ∧
    (findAvailableWorker st t.wtype = none →
      st.workers.length < st.maxWorkers → st.isShuttingDown = false →
      assignTask st now = assignTaskToWorker
        { (createWorkerM st t.wtype now).1 with taskQueue := rest }
        (createWorkerM st t.wtype now).2 t now ∧
      (createWorkerM st t.wtype now).2.wtype = t.wtype) ∧
    (findAvailableWorker st t.wtype = none →
      ¬ st.workers.length < st.maxWorkers → assignTask st now = st) ∧
    (∀ tn, (∀ u ∈ st.taskQueue, u.createdAt ≤ tn.createdAt) →
      QueueInv (sortStable taskLe (st.taskQueue ++ [tn]))) := by
  refine ⟨?_, ?_, ?_, ?_, ?_, ?_, ?_⟩
  · rw [hq]
    exact queueInv_head t rest (hq ▸ hinv)
  · intro w hw
    unfold assignTask
    rw [hq]
    simp only [hw]
  · rintro ⟨w, hwmem, hwty⟩
    have hsome : ((availList st).find? (fun u => u.wtype = t.wtype)).isSome := by
      rw [List.find?_isSome]
      exact ⟨w, hwmem, by simp [hwty]⟩
    obtain ⟨w', hw'⟩ := Option.isSome_iff_exists.mp hsome
    have hty := List.find?_some hw'
    simp only [decide_eq_true_eq] at hty
    refine ⟨w', ?_, hty⟩
    unfold findAvailableWorker
    rw [hw']
  · intro hnone
    have : (availList st).find? (fun u => u.wtype = t.wtype) = none := by
      rw [List.find?_eq_none]
      intro w hw
      simp only [decide_eq_true_eq]
      exact hnone w hw
    unfold findAvailableWorker
    rw [this]
  · intro hfind hlt hshut
    unfold assignTask
    rw [hq]
    simp only [hfind, if_pos hlt, hshut, Bool.false_eq_true, if_false]
    exact ⟨trivial, rfl⟩
  · intro hfind hge
    unfold assignTask
    rw [hq]
    simp only [hfind, if_neg hge]
  · intro tn hnew
    exact queueInv_enqueue st.taskQueue tn hinv hnew

set_option maxRecDepth 40000 in
theorem c2_assignment_policy_witness :
    ((⟨[⟨1, .processor, false, 0, 0, 0, none⟩], [1], [],
        [⟨7, .parser, .high, 2⟩, ⟨8, .parser, .normal, 1⟩],
        2, false, 4, 1⟩ : PoolState).taskQueue =
      ⟨7, .parser, .high, 2⟩ :: [⟨8, .parser, .normal, 1⟩]) ∧
    QueueInv (⟨[⟨1, .processor, false, 0, 0, 0, none⟩], [1], [],
        [⟨7, .parser, .high, 2⟩, ⟨8, .parser, .normal, 1⟩],
        2, false, 4, 1⟩ : PoolState).taskQueue ∧
    (∀ u ∈ (⟨[⟨1, .processor, false, 0, 0, 0, none⟩], [1], [],
        [⟨7, .parser, .high, 2⟩, ⟨8, .parser, .normal, 1⟩],
        2, false, 4, 1⟩ : PoolState).taskQueue,
      poolPriorityVal u.priority ≤ poolPriorityVal Priority.high ∧
      (poolPriorityVal u.priority = poolPriorityVal Priority.high →
        (2 : Nat) ≤ u.createdAt)) :=
  ⟨rfl, by unfold QueueInv; decide,
    fun u hu => ((c2_assignment_policy
      ⟨[⟨1, .processor, false, 0, 0, 0, none⟩], [1], [],
        [⟨7, .parser, .high, 2⟩, ⟨8, .parser, .normal, 1⟩],
        2, false, 4, 1⟩ 5 ⟨7, .parser, .high, 2⟩
      [⟨8, .parser, .normal, 1⟩] rfl
      (by unfold QueueInv; decide)).1 u hu)⟩

set_option maxRecDepth 40000 in
/-- C2 counterexample: with one idle `cache`-kind worker, a pool below
its maximum and a queued `processor`-kind task, the assignment pass hands
the task to the mismatched idle worker and creates nothing — the claim
says a new executor of the task's kind would be created and used. -/
theorem c2_counterexample :
    assignTask ⟨[⟨1, .cache, false, 0, 0, 0, none⟩], [1], [],
        [⟨7, .processor, .normal, 0⟩], 2, false, 4, 1⟩ 5 =
      ⟨[⟨1, .cache, true, 0, 5, 1, some ⟨7, .processor, .normal, 0⟩⟩],
        [], [1], [], 2, false, 4, 1⟩ ∧
    WorkerType.cache ≠ WorkerType.processor ∧
    (1 : Nat) < 4 := by
  refine ⟨by decide, by decide, by decide⟩

/-- During shutdown an assignment pass never changes the number of
workers: it may hand the head task to an existing idle worker, but the
creation branch is guarded by the shutdown flag. -/
theorem assignTask_shutdown_workers_length (st : PoolState) (now : Nat)
    (hs : st.isShuttingDown = true) :
    (assignTask st now).workers.length = st.workers.length := by
  unfold assignTask
  cases hq : st.taskQueue with
  | nil => rfl
  | cons t rest =>
    cases hf : findAvailableWorker st t.wtype with
    | some w => simp [hf, assignTaskToWorker]
    | none =>
      by_cases hlen : st.workers.length < st.maxWorkers
      · simp [hf, hlen, hs]
      · simp [hf, hlen]

/-- An assignment pass during shutdown never drops a queued task: every
task either stays in the queue or is now held by some worker. -/
theorem assignTask_shutdown_keeps (st : PoolState) (now : Nat)
    (t : TaskModel) (ht : t ∈ st.taskQueue) :
    t ∈ (assignTask st now).taskQueue ∨
      ∃ u ∈ (assignTask st now).workers, u.currentTask = some t := by
  unfold assignTask
  cases hq : st.taskQueue with
  | nil => rw [hq] at ht; cases ht
  | cons h rest =>
    rw [hq] at ht
    cases hf : findAvailableWorker st h.wtype with
    | some w =>
      simp only [hf]
      rcases List.mem_cons.mp ht with rfl | htr
      · right
        exact assignTaskToWorker_holds_task
          { st with taskQueue := rest } w t now (findAvailableWorker_mem hf)
      · left
        exact htr
    | none =>
      simp only [hf]
      by_cases hlen : st.workers.length < st.maxWorkers
      · cases hs : st.isShuttingDown with
        | true => simp only [hlen, if_true, hs, if_true]; left; rw [hq]; exact ht
        | false =>
          simp only [hlen, if_true, hs, Bool.false_eq_true, if_false]
          rcases List.mem_cons.mp ht with rfl | htr
          · right
            refine assignTaskToWorker_holds_task _ _ t now ?_
            simp [createWorkerM]
          · left
            exact htr
      · simp only [hlen, if_false]
        left
        rw [hq]
        exact ht

/-- C5 (amended): once every busy executor has finished — the state the
code busy-waits for — the cleanup step terminates every worker, clears
the availability maps and empties the queue, but settles NO promise:
tasks still queued at shutdown are silently discarded, never rejected.
Moreover the pool does not stop accepting work: `executeTask` has no
shutdown check, so a task submitted during shutdown is enqueued (or even
assigned to an idle worker) rather than refused; only worker CREATION is
blocked, so assignment passes during shutdown preserve the worker
count. -/
theorem c5_shutdown_behaviour (st : PoolState)
    (hdrained : st.busyIds = []) :
    (shutdownBegin st).isShuttingDown = true ∧
    (shutdownCleanup (shutdownBegin st)).1.workers = [] ∧
    (shutdownCleanup (shutdownBegin st)).1.available = [] ∧
    (shutdownBegin st).busyIds = [] ∧
    (shutdownCleanup (shutdownBegin st)).1.taskQueue = [] ∧
    (shutdownCleanup (shutdownBegin st)).2 = [] ∧
    (∀ t now,
      t ∈ (executeTask (shutdownBegin st) t now).taskQueue ∨
      ∃ u ∈ (executeTask (shutdownBegin st) t now).workers,
        u.currentTask = some t) ∧
    (∀ now, (assignTask (shutdownBegin st) now).workers.length =
      st.workers.length) := by
  refine ⟨rfl, rfl, rfl, hdrained, rfl, rfl, ?_, ?_⟩
  · intro t now
    have ht : t ∈ sortStable taskLe ((shutdownBegin st).taskQueue ++ [t]) :=
      mem_sortStable.mpr (List.mem_append_right _ (List.mem_singleton.mpr rfl))
    exact assignTask_shutdown_keeps
      { shutdownBegin st with
        taskQueue := sortStable taskLe ((shutdownBegin st).taskQueue ++ [t]) }
      now t ht
  · intro now
    exact assignTask_shutdown_workers_length (shutdownBegin st) now rfl

set_option maxRecDepth 40000 in
theorem c5_shutdown_behaviour_witness :
    ((⟨[⟨1, .parser, false, 0, 0, 0, none⟩], [1], [],
        [⟨7, .parser, .normal, 0⟩], 2, false, 4, 1⟩ : PoolState).busyIds
      = []) ∧
    (shutdownCleanup (shutdownBegin
        ⟨[⟨1, .parser, false, 0, 0, 0, none⟩], [1], [],
          [⟨7, .parser, .normal, 0⟩], 2, false, 4, 1⟩)).2 = [] :=
  ⟨rfl, (c5_shutdown_behaviour
    ⟨[⟨1, .parser, false, 0, 0, 0, none⟩], [1], [],
      [⟨7, .parser, .normal, 0⟩], 2, false, 4, 1⟩ rfl).2.2.2.2.2.1⟩

set_option maxRecDepth 40000 in
/-- C5 counterexample: a pool shutting down with the task 7 still queued
— cleanup settles no promise at all (the claim says task 7's promise is
rejected), and a task submitted DURING shutdown is happily enqueued
rather than refused. -/
theorem c5_counterexample :
    (shutdownCleanup ⟨[], [], [], [⟨7, .parser, .normal, 0⟩],
        1, true, 4, 1⟩).2 = [] ∧
    (⟨[], [], [], [⟨7, .parser, .normal, 0⟩],
        1, true, 4, 1⟩ : PoolState).taskQueue ≠ [] ∧
    (executeTask ⟨[], [], [], [], 1, true, 0, 0⟩
        ⟨9, .parser, .normal, 3⟩ 3).taskQueue =
      [⟨9, .parser, .normal, 3⟩] := by
  refine ⟨rfl, by decide, by decide⟩

/-- A sort key as `sortData` reads it: a column name and whether
`direction === 'desc'` (the direction defaults to ascending). -/
structure SortCol where
  column : String
  desc : Bool
  deriving DecidableEq

/-- Sign of an integer difference.  The source comparator returns the
raw difference `a - b`; `Array.prototype.sort` only consumes its sign,
so the embedding collapses the value to -1/0/1. -/
def icmp (a b : Int) : Int :=
  if a < b then -1 else if b < a then 1 else 0

/-- Sign of a rational difference (the `numA - numB` branch). -/
def qcmp (a b : ℚ) : Int :=
  if a < b then -1 else if b < a then 1 else 0

/-- `String(v)` of a possibly-undefined cell value. -/
def optToStr : Option JSVal → String
  | none => "undefined"
  | some v => jsToString v

/-- `DataProcessorWorker.compareForSort`: null/undefined sort first;
then, when both values coerce to numbers, numeric order; then, when both
parse as dates, date order; else string comparison (`localeCompare`,
modelled as code-point order). -/
def compareForSort (a b : Option JSVal) : Int :=
  if a = none ∨ a = some .jnull then
    (if b = none ∨ b = some .jnull then 0 else -1)
  else if b = none ∨ b = some .jnull then 1
  else
    match jsToNum a, jsToNum b with
    | some na, some nb => qcmp na nb
    | _, _ =>
      match toDateMs a, toDateMs b with
      | some da, some db => icmp da db
      | _, _ => strCmp (optToStr a) (optToStr b)

/-- The row comparator of `sortData`: walk the sort keys left to right,
return the first non-zero per-column comparison (negated for a
descending key), else 0. -/
def multiCmp : List SortCol → JSPairs → JSPairs → Int
  | [], _, _ => 0
  | sc :: rest, a, b =>
    let c := compareForSort (a.get sc.column) (b.get sc.column)
    if c ≠ 0 then (if sc.desc then -c else c) else multiCmp rest a b

/-- The comparator as a boolean `le`, the relation under which a
comparator-sorted output is `Pairwise`-ordered. -/
def sortRowsLe (cols : List SortCol) (a b : JSPairs) : Bool :=
  multiCmp cols a b ≤ 0

/-- `DataProcessorWorker.sortData`: copy the dataset and sort it with
the multi-key comparator using the (ES2019-stable)
`Array.prototype.sort`, modelled by the stable insertion sort. -/
def sortData (cols : List SortCol) (d : List JSPairs) : List JSPairs :=
  sortStable (sortRowsLe cols) d

theorem charListCmp_antisymm :
    ∀ (a b : List Char), charListCmp b a = -charListCmp a b
  | [], [] => by simp [charListCmp]
  | [], _ :: _ => by simp [charListCmp]
  | _ :: _, [] => by simp [charListCmp]
  | x :: xs, y :: ys => by
    by_cases h1 : x.toNat < y.toNat
    · have h2 : ¬ y.toNat < x.toNat := by omega
      simp [charListCmp, h1, h2]
    · by_cases h2 : y.toNat < x.toNat
      · simp [charListCmp, h1, h2]
      · simp [charListCmp, h1, h2, charListCmp_antisymm xs ys]

theorem strCmp_antisymm (a b : String) : strCmp b a = -strCmp a b :=
  charListCmp_antisymm a.data b.data

theorem qcmp_antisymm (a b : ℚ) : qcmp b a = -qcmp a b := by
  rcases lt_trichotomy a b with h | h | h
  · simp [qcmp, h, asymm h]
  · simp [qcmp, h]
  · simp [qcmp, h, asymm h]

theorem icmp_antisymm (a b : Int) : icmp b a = -icmp a b := by
  rcases lt_trichotomy a b with h | h | h
  · simp [icmp, h, asymm h]
  · simp [icmp, h]
  · simp [icmp, h, asymm h]

theorem compareForSort_antisymm (a b : Option JSVal) :
    compareForSort b a = -compareForSort a b := by
  unfold compareForSort
  by_cases ha : a = none ∨ a = some .jnull
  · by_cases hb : b = none ∨ b = some .jnull
    · simp [ha, hb]
    · simp [ha, hb]
  · by_cases hb : b = none ∨ b = some .jnull
    · simp [ha, hb]
    · simp only [ha, hb, if_false]
      cases hna : jsToNum a with
      | some na =>
        cases hnb : jsToNum b with
        | some nb => exact qcmp_antisymm na nb
        | none =>
          cases hda : toDateMs a with
          | some da =>
            cases hdb : toDateMs b with
            | some db => exact icmp_antisymm da db
            | none => exact strCmp_antisymm (optToStr a) (optToStr b)
          | none =>
            cases hdb : toDateMs b with
            | some db => exact strCmp_antisymm (optToStr a) (optToStr b)
            | none => exact strCmp_antisymm (optToStr a) (optToStr b)
      | none =>
        cases hnb : jsToNum b with
        | some nb =>
          cases hda : toDateMs a with
          | some da =>
            cases hdb : toDateMs b with
            | some db => exact icmp_antisymm da db
            | none => exact strCmp_antisymm (optToStr a) (optToStr b)
          | none =>
            cases hdb : toDateMs b with
            | some db => exact strCmp_antisymm (optToStr a) (optToStr b)
            | none => exact strCmp_antisymm (optToStr a) (optToStr b)
        | none =>
          cases hda : toDateMs a with
          | some da =>
            cases hdb : toDateMs b with
            | some db => exact icmp_antisymm da db
            | none => exact strCmp_antisymm (optToStr a) (optToStr b)
          | none =>
            cases hdb : toDateMs b with
            | some db => exact strCmp_antisymm (optToStr a) (optToStr b)
            | none => exact strCmp_antisymm (optToStr a) (optToStr b)

theorem multiCmp_antisymm (cols : List SortCol) (a b : JSPairs) :
    multiCmp cols b a = -multiCmp cols a b := by
  induction cols with
  | nil => simp [multiCmp]
  | cons sc rest ih =>
    simp only [multiCmp]
    rw [compareForSort_antisymm (a.get sc.column) (b.get sc.column)]
    by_cases h : compareForSort (a.get sc.column) (b.get sc.column) = 0
    · simp [h, ih]
    · have h' : ¬ (-compareForSort (a.get sc.column) (b.get sc.column) = 0) := by
        omega
      rw [if_pos h', if_pos h]
      cases hd : sc.desc <;> simp

theorem sortRowsLe_total (cols : List SortCol) (a b : JSPairs) :
    sortRowsLe cols a b = true ∨ sortRowsLe cols b a = true := by
  unfold sortRowsLe
  rw [multiCmp_antisymm]
  simp only [decide_eq_true_eq]
  omega

theorem enumFrom_fst_le {l : List α} :
    ∀ {n : Nat} {p : Nat × α}, p ∈ l.enumFrom n → n ≤ p.1 := by
  induction l with
  | nil => intro n p h; cases h
  | cons x xs ih =>
    intro n p h
    simp only [List.enumFrom] at h
    rcases List.mem_cons.mp h with rfl | h
    · exact le_refl n
    · exact Nat.le_of_succ_le (ih h)

theorem enumFrom_pairwise_lt (l : List α) :
    ∀ n, (l.enumFrom n).Pairwise (fun a b => a.1 < b.1) := by
  induction l with
  | nil => intro n; simp [List.enumFrom]
  | cons x xs ih =>
    intro n
    simp only [List.enumFrom]
    rw [List.pairwise_cons]
    exact ⟨fun p hp => Nat.lt_of_lt_of_le (Nat.lt_succ_self n)
      (enumFrom_fst_le hp), ih (n + 1)⟩

theorem enum_pairwise_lt (l : List α) :
    l.enum.Pairwise (fun a b => a.1 < b.1) :=
  enumFrom_pairwise_lt l 0

/-- C6 (amended): `sortData` IS the stable multi-key comparison sort
described — output a permutation of the input, pairwise ordered by the
comparator ladder (numeric when both values coerce to numbers, else
dates when both parse, else string comparison, per-key direction,
left-to-right tie-break), and rows comparing equal keep their original
relative order — PROVIDED the comparator is transitive on the dataset's
rows.  The ladder is not transitive on mixed data (see the
counterexample), in which case no output order can satisfy the spec. -/
theorem c6_stable_multikey_sort (cols : List SortCol) (d : List JSPairs)
    (htrans : ∀ a ∈ d, ∀ b ∈ d, ∀ c ∈ d,
      sortRowsLe cols a b = true → sortRowsLe cols b c = true →
        sortRowsLe cols a c = true) :
    sortData cols d ~ d ∧
    (sortData cols d).Pairwise (fun a b => multiCmp cols a b ≤ 0) ∧
    ∃ es : List (Nat × JSPairs),
      es.map Prod.snd = sortData cols d ∧
      es ~ d.enum ∧
      es.Pairwise (fun a b => multiCmp cols a.2 b.2 ≤ 0 ∧
        (multiCmp cols a.2 b.2 = 0 → a.1 < b.1)) := by
  have hmap : (sortStable (fun a b : Nat × JSPairs =>
      sortRowsLe cols a.2 b.2) d.enum).map Prod.snd = sortData cols d := by
    rw [@sortStable_map _ _
      (fun a b : Nat × JSPairs => sortRowsLe cols a.2 b.2)
      (sortRowsLe cols) Prod.snd (fun _ _ => rfl) d.enum,
      List.enum_map_snd]
    rfl
  have hmem2 : ∀ p ∈ d.enum, p.2 ∈ d := by
    intro p hp
    have h := List.mem_map_of_mem Prod.snd hp
    rwa [List.enum_map_snd] at h
  have hsp := @sortStable_pairwise _
    (fun a b : Nat × JSPairs => sortRowsLe cols a.2 b.2)
    (fun a b : Nat × JSPairs =>
      multiCmp cols a.2 b.2 = 0 → a.1 < b.1)
    d.enum
    (fun a b c ha hb hc hab hbc =>
      htrans a.2 (hmem2 a ha) b.2 (hmem2 b hb) c.2 (hmem2 c hc) hab hbc)
    (fun a b _ _ => sortRowsLe_total cols a.2 b.2)
    (by
      refine (enum_pairwise_lt d).imp ?_
      intro a b hab
      refine ⟨fun _ _ => hab, ?_⟩
      intro hnle heq
      exfalso
      apply hnle
      unfold sortRowsLe
      rw [multiCmp_antisymm] at heq
      simp only [decide_eq_true_eq]
      omega)
  refine ⟨sortStable_perm _ d, ?_, ?_⟩
  · rw [← hmap]
    rw [List.pairwise_map]
    refine hsp.imp ?_
    intro a b hab
    have h := hab.1
    unfold sortRowsLe at h
    simpa using h
  · refine ⟨sortStable (fun a b : Nat × JSPairs =>
      sortRowsLe cols a.2 b.2) d.enum, hmap, sortStable_perm _ d.enum, ?_⟩
    refine hsp.imp ?_
    intro a b hab
    have h := hab.1
    unfold sortRowsLe at h
    simp only [decide_eq_true_eq] at h
    exact ⟨h, hab.2⟩

set_option maxRecDepth 40000 in
theorem c6_stable_multikey_sort_witness :
    (∀ a ∈ [JSPairs.cons "a" (.jnum 2) .nil, JSPairs.cons "a" (.jnum 1) .nil],
     ∀ b ∈ [JSPairs.cons "a" (.jnum 2) .nil, JSPairs.cons "a" (.jnum 1) .nil],
     ∀ c ∈ [JSPairs.cons "a" (.jnum 2) .nil, JSPairs.cons "a" (.jnum 1) .nil],
      sortRowsLe [⟨"a", false⟩] a b = true →
      sortRowsLe [⟨"a", false⟩] b c = true →
      sortRowsLe [⟨"a", false⟩] a c = true) ∧
    (sortData [⟨"a", false⟩]
        [JSPairs.cons "a" (.jnum 2) .nil, JSPairs.cons "a" (.jnum 1) .nil] ~
      [JSPairs.cons "a" (.jnum 2) .nil, JSPairs.cons "a" (.jnum 1) .nil] ∧
     (sortData [⟨"a", false⟩]
        [JSPairs.cons "a" (.jnum 2) .nil,
         JSPairs.cons "a" (.jnum 1) .nil]).Pairwise
        (fun a b => multiCmp [⟨"a", false⟩] a b ≤ 0) ∧
     ∃ es : List (Nat × JSPairs),
      es.map Prod.snd = sortData [⟨"a", false⟩]
        [JSPairs.cons "a" (.jnum 2) .nil, JSPairs.cons "a" (.jnum 1) .nil] ∧
      es ~ ([JSPairs.cons "a" (.jnum 2) .nil,
             JSPairs.cons "a" (.jnum 1) .nil] : List JSPairs).enum ∧
      es.Pairwise (fun a b => multiCmp [⟨"a", false⟩] a.2 b.2 ≤ 0 ∧
        (multiCmp [⟨"a", false⟩] a.2 b.2 = 0 → a.1 < b.1))) :=
  ⟨by decide, c6_stable_multikey_sort [⟨"a", false⟩]
    [JSPairs.cons "a" (.jnum 2) .nil, JSPairs.cons "a" (.jnum 1) .nil]
    (by decide)⟩

set_option maxRecDepth 40000 in
/-- C6 counterexample: on mixed data the comparator ladder is cyclic —
`"3a" < 9` (string branch), `9 < "2024-01-05"` (date branch),
`"2024-01-05" < "3a"` (string branch) — so NO ordering of these three
rows is sorted under the comparator, and the model's sort output indeed
is not. -/
theorem c6_counterexample :
    multiCmp [⟨"a", false⟩] (JSPairs.cons "a" (.jstr "3a") .nil)
      (JSPairs.cons "a" (.jnum 9) .nil) < 0 ∧
    multiCmp [⟨"a", false⟩] (JSPairs.cons "a" (.jnum 9) .nil)
      (JSPairs.cons "a" (.jstr "2024-01-05") .nil) < 0 ∧
    multiCmp [⟨"a", false⟩] (JSPairs.cons "a" (.jstr "2024-01-05") .nil)
      (JSPairs.cons "a" (.jstr "3a") .nil) < 0 ∧
    ¬ (sortData [⟨"a", false⟩]
        [JSPairs.cons "a" (.jstr "3a") .nil,
         JSPairs.cons "a" (.jnum 9) .nil,
         JSPairs.cons "a" (.jstr "2024-01-05") .nil]).Pairwise
        (fun a b => multiCmp [⟨"a", false⟩] a b ≤ 0) := by
  refine ⟨by decide, by decide, by decide, by decide⟩

/-- ASCII lowercasing of one character.
Modelled: `String.prototype.toLowerCase`, restricted to ASCII (the only
data the claims exercise). -/
def lowerChar (c : Char) : Char :=
  if 65 ≤ c.toNat ∧ c.toNat ≤ 90 then Char.ofNat (c.toNat + 32) else c

/-- ASCII lowercasing of a string. -/
def lowerStr (s : String) : String :=
  String.mk (s.data.map lowerChar)

/-- Character-list prefix test (`String.prototype.startsWith`). -/
def chPre : List Char → List Char → Bool
  | [], _ => true
  | _ :: _, [] => false
  | a :: as, b :: bs => decide (a = b) && chPre as bs

/-- Character-list substring test (`String.prototype.includes`). -/
def chSub (p : List Char) : List Char → Bool
  | [] => chPre p []
  | b :: bs => chPre p (b :: bs) || chSub p bs

/-- Character-list suffix test (`String.prototype.endsWith`). -/
def chSuf (p s : List Char) : Bool :=
  chPre p.reverse s.reverse

/-- `Array.prototype.includes` under strict (SameValueZero) equality. -/
def jlistContains : JSList → JSVal → Bool
  | .nil, _ => false
  | .cons x tl, v => decide (x = v) || jlistContains tl v

/-- `String(x || '')`: the string form of a value, with falsy values
(undefined, null, `''`, `0`, `false`) collapsing to the empty string. -/
def strOrEmpty (v : Option JSVal) : String :=
  if jsTruthy v then optToStr v else ""

/-- `regex.test` of `new RegExp(pattern, 'i')`.
Modelled: the external regular-expression engine, restricted to
metacharacter-free literal patterns, where the test with the `'i'` flag
is case-insensitive substring search; a construction failure (caught to
`false` in the source) is not represented. -/
def regexTest (pat s : String) : Bool :=
  chSub (lowerStr pat).data (lowerStr s).data

/-- The three-valued-free comparison operators `compareValues` is called
with. -/
inductive CmpOp where
  | eq3 | ne3 | gt | ge | lt | le
  deriving DecidableEq

/-- `DataProcessorWorker.compareValues`: numeric comparison when both
sides coerce to numbers, else date comparison when both parse as dates,
else string comparison of `String(x || '')` forms. -/
def compareValues (a b : Option JSVal) (op : CmpOp) : Bool :=
  match jsToNum a, jsToNum b with
  | some na, some nb =>
    match op with
    | .eq3 => decide (na = nb)
    | .ne3 => decide (na ≠ nb)
    | .gt => decide (nb < na)
    | .ge => decide (nb ≤ na)
    | .lt => decide (na < nb)
    | .le => decide (na ≤ nb)
  | _, _ =>
    match toDateMs a, toDateMs b with
    | some da, some db =>
      match op with
      | .eq3 => decide (da = db)
      | .ne3 => decide (da ≠ db)
      | .gt => decide (db < da)
      | .ge => decide (db ≤ da)
      | .lt => decide (da < db)
      | .le => decide (da ≤ db)
    | _, _ =>
      let sa := strOrEmpty a
      let sb := strOrEmpty b
      match op with
      | .eq3 => decide (sa = sb)
      | .ne3 => decide (sa ≠ sb)
      | .gt => decide (0 < strCmp sa sb)
      | .ge => decide (0 ≤ strCmp sa sb)
      | .lt => decide (strCmp sa sb < 0)
      | .le => decide (strCmp sa sb ≤ 0)

/-- The filter operators of `evaluateConditions`' switch; `unknownOp`
stands for any other operator string, for which the switch's `default`
arm returns `true`. -/
inductive CondOp where
  | equals | not_equals | greater_than | greater_than_or_equal
  | less_than | less_than_or_equal
  | contains | not_contains | starts_with | ends_with
  | is_empty | is_not_empty | in_list | not_in_list | between
  | regexOp | unknownOp
  deriving DecidableEq

/-- One filter condition.  The source also destructures a
`logicOperator` field (default `'AND'`) but never reads it: conditions
always combine with AND. -/
structure Condition where
  column : String
  op : CondOp
  value : Option JSVal
  deriving DecidableEq

/-- The per-condition body of `evaluateConditions`. -/
def evaluateCondition (row : JSPairs) (c : Condition) : Bool :=
  let cv := row.get c.column
  match c.op with
  | .equals => compareValues cv c.value .eq3
  | .not_equals => compareValues cv c.value .ne3
  | .greater_than => compareValues cv c.value .gt
  | .greater_than_or_equal => compareValues cv c.value .ge
  | .less_than => compareValues cv c.value .lt
  | .less_than_or_equal => compareValues cv c.value .le
  | .contains =>
    chSub (lowerStr (strOrEmpty c.value)).data (lowerStr (strOrEmpty cv)).data
  | .not_contains =>
    !chSub (lowerStr (strOrEmpty c.value)).data (lowerStr (strOrEmpty cv)).data
  | .starts_with =>
    chPre (lowerStr (strOrEmpty c.value)).data (lowerStr (strOrEmpty cv)).data
  | .ends_with =>
    chSuf (lowerStr (strOrEmpty c.value)).data (lowerStr (strOrEmpty cv)).data
  | .is_empty =>
    !jsTruthy cv || decide (cv = some (.jstr "")) ||
      decide (cv = some JSVal.jnull) || decide (cv = none)
  | .is_not_empty =>
    jsTruthy cv && !decide (cv = some (.jstr "")) &&
      !decide (cv = some JSVal.jnull) && !decide (cv = none)
  | .in_list =>
    match c.value with
    | some (.jarr l) =>
      match cv with
      | some v => jlistContains l v
      | none => false
    | _ => false
  | .not_in_list =>
    match c.value with
    | some (.jarr l) =>
      !(match cv with
        | some v => jlistContains l v
        | none => false)
    | _ => false
  | .between =>
    match c.value with
    | some (.jarr (.cons v0 (.cons v1 .nil))) =>
      match jsToNum cv, jsToNum (some v0), jsToNum (some v1) with
      | some nv, some n0, some n1 => decide (n0 ≤ nv) && decide (nv ≤ n1)
      | _, _, _ => false
    | _ => false
  | .regexOp =>
    regexTest (match c.value with | none => "" | some v => jsToString v)
      (strOrEmpty cv)
  | .unknownOp => true

/-- `DataProcessorWorker.evaluateConditions`: vacuously true on an empty
(or absent) condition list, else the conjunction (`Array.every`) of the
per-condition results. -/
def evaluateConditions (row : JSPairs) (cs : List Condition) : Bool :=
  if cs.isEmpty then true else cs.all (evaluateCondition row)

/-- `DataProcessorWorker.filterData`: keep exactly the rows satisfying
every condition, in their original order. -/
def filterData (d : List JSPairs) (cs : List Condition) : List JSPairs :=
  d.filter (fun r => evaluateConditions r cs)

theorem evaluateConditions_append (r : JSPairs) (c1 c2 : List Condition) :
    evaluateConditions r (c1 ++ c2) =
      (evaluateConditions r c1 && evaluateConditions r c2) := by
  unfold evaluateConditions
  cases c1 with
  | nil => simp
  | cons x xs =>
    cases c2 with
    | nil => simp
    | cons y ys => simp [List.all_append, Bool.and_assoc]

/-- C7: filtering with `C1` and then filtering the result with `C2`
yields exactly the same row sequence as one filter with `C1 ++ C2` —
conditions combine with AND semantics and row order is preserved. -/
theorem c7_filter_and_composition (d : List JSPairs)
    (c1 c2 : List Condition) :
    filterData (filterData d c1) c2 = filterData d (c1 ++ c2) := by
  unfold filterData
  induction d with
  | nil => simp
  | cons r rs ih =>
    simp only [List.filter_cons]
    rw [evaluateConditions_append]
    cases h1 : evaluateConditions r c1 <;>
      cases h2 : evaluateConditions r c2 <;>
      simp [h1, h2, ih, List.filter_cons]

/-- Split a list into consecutive chunks of `size` elements (the last
one shorter), with explicit fuel for structural recursion. -/
def chunkRowsAux : Nat → Nat → List α → List (List α)
  | 0, _, _ => []
  | _, _, [] => []
  | fuel + 1, size, l => l.take size :: chunkRowsAux fuel size (l.drop size)

/-- `for (let i = 0; i < allData.length; i += chunkSize) slice(i, i + chunkSize)`. -/
def chunkRows (size : Nat) (l : List α) : List (List α) :=
  chunkRowsAux l.length size l

/-- `StreamProcessor.processExcelInChunks`: read the worksheet rows in
consecutive blocks of `this.options.chunkSize` (the configured size) and
push one data chunk per block. -/
def processExcelInChunks (chunkSize : Nat) (rows : List JSPairs) :
    List (List JSPairs) :=
  chunkRows chunkSize rows

/-- JS `a < b` on two cell values: string comparison when both are
strings, else numeric comparison of their coercions (false when either
is NaN). -/
def jsLt (a b : Option JSVal) : Bool :=
  match a, b with
  | some (.jstr sa), some (.jstr sb) => decide (strCmp sa sb < 0)
  | _, _ =>
    match jsToNum a, jsToNum b with
    | some na, some nb => decide (na < nb)
    | _, _ => false

/-- The comparator inside `createSortStream`'s flush: raw `<`/`>` on the
column values per sort key, direction flip, left-to-right ties (value
collapsed to its sign, which is all the sort consumes). -/
def flushCmp : List SortCol → JSPairs → JSPairs → Int
  | [], _, _ => 0
  | sc :: rest, a, b =>
    let c : Int :=
      if jsLt (a.get sc.column) (b.get sc.column) then -1
      else if jsLt (b.get sc.column) (a.get sc.column) then 1 else 0
    if c ≠ 0 then (if sc.desc then -c else c) else flushCmp rest a b

/-- The chunk size `createSortStream`'s flush actually re-chunks at:
`this.options?.chunkSize || 100000` is evaluated with `this` bound to
the Transform stream object, which has no `options` property, so the
optional chain yields `undefined` and the fallback `100000` is used
whatever chunk size the `StreamProcessor` was configured with. -/
def sortStreamChunkSize : Nat := 100000

/-- `createSortStream`'s flush: concatenate every collected chunk, sort
with the flush comparator, and re-emit in blocks of
`sortStreamChunkSize`. -/
def sortStreamFlush (cols : List SortCol)
    (collected : List (List JSPairs)) : List (List JSPairs) :=
  chunkRows sortStreamChunkSize
    (sortStable (fun a b => flushCmp cols a b ≤ 0) collected.flatten)

theorem chunkRowsAux_length_le :
    ∀ (fuel size : Nat) (l : List α), ∀ c ∈ chunkRowsAux fuel size l,
      c.length ≤ size := by
  intro fuel
  induction fuel with
  | zero => intro size l c hc; simp [chunkRowsAux] at hc
  | succ n ih =>
    intro size l c hc
    cases l with
    | nil => simp [chunkRowsAux] at hc
    | cons x xs =>
      rw [show chunkRowsAux (n + 1) size (x :: xs) =
        (x :: xs).take size :: chunkRowsAux n size ((x :: xs).drop size)
        from rfl] at hc
      rcases List.mem_cons.mp hc with rfl | hc
      · simpa using List.length_take_le size (x :: xs)
      · exact ih size ((x :: xs).drop size) c hc

/-- C8: the chunked reader does emit chunks of at most the configured
size, but the sort stage does NOT re-chunk at the configured size: its
flush reads `this.options?.chunkSize` off the Transform stream object —
which has no `options` property — so the `|| 100000` fallback always
applies.  With chunkSize = 2 and three rows, every reader chunk has ≤ 2
rows yet the flush emits a chunk of 3 rows, breaking the
`rows.length ≤ chunkSize` invariant. -/
theorem c8_sort_stream_chunk_bug :
    (∀ (size : Nat) (rows : List JSPairs),
      ∀ c ∈ processExcelInChunks size rows, c.length ≤ size) ∧
    sortStreamChunkSize = 100000 ∧
    (∃ c ∈ sortStreamFlush [⟨"a", false⟩]
        (processExcelInChunks 2
          [JSPairs.cons "a" (.jnum 3) .nil,
           JSPairs.cons "a" (.jnum 1) .nil,
           JSPairs.cons "a" (.jnum 2) .nil]),
      2 < c.length) := by
  refine ⟨?_, rfl, ?_⟩
  · intro size rows c hc
    exact chunkRowsAux_length_le rows.length size rows c hc
  · refine ⟨[JSPairs.cons "a" (.jnum 1) .nil,
      JSPairs.cons "a" (.jnum 2) .nil,
      JSPairs.cons "a" (.jnum 3) .nil], ?_, ?_⟩
    · decide
    · decide

set_option maxRecDepth 40000 in
theorem c8_sort_stream_chunk_bug_witness :
    ([JSPairs.cons "a" (.jnum 3) .nil, JSPairs.cons "a" (.jnum 1) .nil] ∈
      processExcelInChunks 2
        [JSPairs.cons "a" (.jnum 3) .nil,
         JSPairs.cons "a" (.jnum 1) .nil,
         JSPairs.cons "a" (.jnum 2) .nil]) ∧
    ([JSPairs.cons "a" (.jnum 3) .nil,
      JSPairs.cons "a" (.jnum 1) .nil] : List JSPairs).length ≤ 2 :=
  ⟨by decide, c8_sort_stream_chunk_bug.1 2
    [JSPairs.cons "a" (.jnum 3) .nil,
     JSPairs.cons "a" (.jnum 1) .nil,
     JSPairs.cons "a" (.jnum 2) .nil]
    [JSPairs.cons "a" (.jnum 3) .nil, JSPairs.cons "a" (.jnum 1) .nil]
    (by decide)⟩

theorem alGet_none_iff {m : List (String × β)} {k : String} :
    alGet m k = none ↔ k ∉ m.map Prod.fst := by
  induction m with
  | nil => simp [alGet]
  | cons e tl ih =>
    by_cases h : e.1 = k
    · subst h; simp [alGet]
    · have h' : ¬ k = e.1 := fun hh => h hh.symm
      simp [alGet, h, h', ih]

theorem alSet_map_fst_of_isSome {m : List (String × β)} {k : String}
    (v : β) (h : (alGet m k).isSome) :
    (alSet m k v).map Prod.fst = m.map Prod.fst := by
  induction m with
  | nil => simp [alGet] at h
  | cons e tl ih =>
    by_cases he : e.1 = k
    · subst he; simp [alSet]
    · have h' : (alGet tl k).isSome := by simpa [alGet, he] using h
      simp [alSet, he, ih h']

theorem alGet_append_single (m : List (String × β)) (k0 k : String)
    (v : β) :
    alGet (m ++ [(k0, v)]) k =
      match alGet m k with
      | some w => some w
      | none => if k0 = k then some v else none := by
  induction m with
  | nil => simp [alGet]
  | cons e tl ih =>
    by_cases he : e.1 = k
    · simp [alGet, he]
    · simp [alGet, he, ih]

/-- `Array.prototype.join('|')`. -/
def joinBar : List String → String
  | [] => ""
  | [s] => s
  | s :: rest => s ++ "|" ++ joinBar rest

/-- The composite group key of one row:
`groupBy.length > 0 ? groupBy.map(col => row[col]).join('|') : 'all'`. -/
def groupKeyOf (gb : List String) (row : JSPairs) : String :=
  if 0 < gb.length then
    joinBar (gb.map (fun col => joinElemStr (row.get col)))
  else "all"

/-- The grouping loop of `DataProcessorWorker.aggregateData`: walk the
rows keeping the `groups` Map (insertion-ordered, modelled as an assoc
list), creating a group at first sight of a key and bumping its count
otherwise.  The per-alias aggregation state the source carries alongside
plays no part in the grouping itself. -/
def aggGroups (gb : List String) :
    List JSPairs → List (String × Nat) → List (String × Nat)
  | [], gs => gs
  | row :: rest, gs =>
    match alGet gs (groupKeyOf gb row) with
    | some c => aggGroups gb rest (alSet gs (groupKeyOf gb row) (c + 1))
    | none => aggGroups gb rest (gs ++ [(groupKeyOf gb row, 1)])

/-- The `groups` Map after the loop; the emitted result,
`Array.from(groups.values()).map(...)`, has exactly one row per entry
of this list. -/
def aggregateGroups (gb : List String) (d : List JSPairs) :
    List (String × Nat) :=
  aggGroups gb d []

/-- Count held in an optional map slot (missing = 0). -/
def optC : Option Nat → Nat
  | none => 0
  | some c => c

theorem aggGroups_spec (gb : List String) :
    ∀ (d : List JSPairs) (gs : List (String × Nat)),
      ((gs.map Prod.fst).Nodup → ((aggGroups gb d gs).map Prod.fst).Nodup) ∧
      (∀ k, k ∈ (aggGroups gb d gs).map Prod.fst ↔
        k ∈ gs.map Prod.fst ∨ k ∈ d.map (groupKeyOf gb)) ∧
      (∀ k, optC (alGet (aggGroups gb d gs) k) =
        optC (alGet gs k) +
          (d.filter (fun r => groupKeyOf gb r = k)).length) := by
  intro d
  induction d with
  | nil =>
    intro gs
    refine ⟨id, fun k => by simp [aggGroups], fun k => by simp [aggGroups]⟩
  | cons row rest ih =>
    intro gs
    rw [show aggGroups gb (row :: rest) gs =
      (match alGet gs (groupKeyOf gb row) with
       | some c => aggGroups gb rest (alSet gs (groupKeyOf gb row) (c + 1))
       | none => aggGroups gb rest (gs ++ [(groupKeyOf gb row, 1)]))
      from rfl]
    cases hg : alGet gs (groupKeyOf gb row) with
    | some c =>
      refine ⟨?_, ?_, ?_⟩
      · intro hnd
        apply (ih _).1
        rw [alSet_map_fst_of_isSome _ (by rw [hg]; rfl)]
        exact hnd
      · intro k
        rw [(ih _).2.1 k, alSet_map_fst_of_isSome _ (by rw [hg]; rfl)]
        simp only [List.map_cons, List.mem_cons]
        constructor
        · rintro (h | h)
          · exact Or.inl h
          · exact Or.inr (Or.inr h)
        · rintro (h | h | h)
          · exact Or.inl h
          · subst h
            left
            by_contra hne
            have hnone := alGet_none_iff.mpr hne
            rw [hnone] at hg
            cases hg
          · exact Or.inr h
      · intro k
        rw [(ih _).2.2 k]
        by_cases hk : groupKeyOf gb row = k
        · subst hk
          rw [alGet_alSet_self, hg]
          simp [optC, List.filter_cons]
          omega
        · have hk' : k ≠ groupKeyOf gb row := fun hh => hk hh.symm
          rw [alGet_alSet_ne _ _ hk']
          simp [List.filter_cons, hk]
    | none =>
      have hnot : groupKeyOf gb row ∉ gs.map Prod.fst := alGet_none_iff.mp hg
      refine ⟨?_, ?_, ?_⟩
      · intro hnd
        apply (ih _).1
        rw [List.map_append]
        simp only [List.map_cons, List.map_nil]
        rw [List.nodup_append]
        exact ⟨hnd, List.nodup_singleton _,
          fun a ha hb => hnot (by rwa [List.mem_singleton.mp hb] at ha)⟩
      · intro k
        rw [(ih _).2.1 k, List.map_append]
        simp only [List.map_cons, List.map_nil, List.mem_append,
          List.mem_singleton, List.mem_cons, List.not_mem_nil, or_false,
          false_or]
        tauto
      · intro k
        rw [(ih _).2.2 k, alGet_append_single]
        by_cases hk : groupKeyOf gb row = k
        · subst hk
          rw [hg]
          simp [optC, List.filter_cons]
          omega
        · have hk' : ¬ (groupKeyOf gb row = k) := hk
          cases hgk : alGet gs k with
          | some w => simp [optC, List.filter_cons, hk]
          | none => simp [optC, List.filter_cons, hk, hk']

/-- C9 (amended): rows are grouped by the `'|'`-join of their `groupBy`
column values — rows whose values are pairwise equal always share a
group, and the stage emits exactly one output row per DISTINCT KEY
(group keys are unique, are exactly the keys occurring in the data, and
each group's count is the number of rows with that key).  The separator
is NOT collision-free, though: `'|'` can occur in a bare value, so rows
with different value tuples can share a key (see the counterexample),
and the claim's "same group iff pairwise equal values" fails. -/
theorem c9_aggregate_grouping (gb : List String) (d : List JSPairs) :
    (∀ r1 r2 : JSPairs, (∀ c ∈ gb, r1.get c = r2.get c) →
      groupKeyOf gb r1 = groupKeyOf gb r2) ∧
    ((aggregateGroups gb d).map Prod.fst).Nodup ∧
    (∀ k, k ∈ (aggregateGroups gb d).map Prod.fst ↔
      k ∈ d.map (groupKeyOf gb)) ∧
    (∀ k, optC (alGet (aggregateGroups gb d) k) =
      (d.filter (fun r => groupKeyOf gb r = k)).length) := by
  have hs := aggGroups_spec gb d []
  refine ⟨?_, hs.1 (by simp), ?_, ?_⟩
  · intro r1 r2 hvals
    have hmap : gb.map (fun col => joinElemStr (r1.get col)) =
        gb.map (fun col => joinElemStr (r2.get col)) :=
      List.map_congr_left (fun c hc => by rw [hvals c hc])
    unfold groupKeyOf
    rw [hmap]
  · intro k
    have h := hs.2.1 k
    simpa using h
  · intro k
    have h := hs.2.2 k
    simpa [optC, alGet] using h

set_option maxRecDepth 40000 in
theorem c9_aggregate_grouping_witness :
    (∀ c ∈ ["a", "b"],
      (JSPairs.cons "a" (.jstr "u") (JSPairs.cons "b" (.jstr "z") .nil)).get c =
      (JSPairs.cons "b" (.jstr "z") (JSPairs.cons "a" (.jstr "u") .nil)).get c) ∧
    groupKeyOf ["a", "b"]
      (JSPairs.cons "a" (.jstr "u") (JSPairs.cons "b" (.jstr "z") .nil)) =
    groupKeyOf ["a", "b"]
      (JSPairs.cons "b" (.jstr "z") (JSPairs.cons "a" (.jstr "u") .nil)) :=
  ⟨by decide, (c9_aggregate_grouping ["a", "b"] []).1 _ _ (by decide)⟩

set_option maxRecDepth 40000 in
/-- C9 counterexample: `{a: "x|y", b: "z"}` and `{a: "x", b: "y|z"}`
have different `a`-values yet the same composite key `"x|y|z"`, so the
aggregation puts them in a single group. -/
theorem c9_counterexample :
    groupKeyOf ["a", "b"]
      (JSPairs.cons "a" (.jstr "x|y") (JSPairs.cons "b" (.jstr "z") .nil)) =
    groupKeyOf ["a", "b"]
      (JSPairs.cons "a" (.jstr "x") (JSPairs.cons "b" (.jstr "y|z") .nil)) ∧
    (JSPairs.cons "a" (.jstr "x|y") (JSPairs.cons "b" (.jstr "z") .nil)).get "a" ≠
    (JSPairs.cons "a" (.jstr "x") (JSPairs.cons "b" (.jstr "y|z") .nil)).get "a" ∧
    (aggregateGroups ["a", "b"]
      [JSPairs.cons "a" (.jstr "x|y") (JSPairs.cons "b" (.jstr "z") .nil),
       JSPairs.cons "a" (.jstr "x") (JSPairs.cons "b" (.jstr "y|z") .nil)]).length
      = 1 := by
  refine ⟨by decide, by decide, by decide⟩
